import Mathlib

/-!
Verification of `sys/dev/drm2/drm_atomic.h`.

A shallow embedding of the Linux-style atomic and bit operations that the DRM
compatibility header builds on FreeBSD's native atomics, and theorems about
the embedding.

Conventions of the embedding.

* An `int`, `u_int` or `long` object is represented by its bit pattern, a
  natural number below `2 ^ 32` (below `2 ^ LONG_BIT` for a `long`).  Where
  the sign of an `int` matters the pattern is read through `toInt32`; an
  `int` given by its value is turned into its pattern by `toU32`.
* Signed arithmetic wraps (the kernel is built with two's complement
  wrap-around), so `1 << 31` is `INT_MIN`.  A shift by at least the width of
  the promoted operand has no defined result and is modelled as a failure.
* A bit array `p` is the list of its 32-bit words.  An access outside the
  list is undefined in C and is a failure (`none`, or `Run.fault`) here.
* An `int` index or bound passed in (`b`, `max`) is given by its value, taken
  in the non-negative range.  The loop counter of `find_first_zero_bit` is an
  `int` that wraps and can become negative.
* A retry loop or an open-ended `for (;;)` takes a step budget (`fuel`); the
  theorems show which budget is enough.
* Outside the section on concurrent callers there is one thread of
  execution: the memory passed in is the memory the operation sees at every
  step.  In that section the callers of `test_and_set_bit` interleave their
  reads and compare-and-swaps as a schedule says.
-/

namespace DrmAtomic

/-! ## Machine integers -/

/-- The pattern of the `u_int` that an `int` of value `i` converts to. -/
def toU32 (i : Int) : Nat := (i % 2 ^ 32).toNat

/-- The value of the `int` whose 32-bit pattern is `x`. -/
def toInt32 (x : Nat) : Int :=
  if x % 2 ^ 32 < 2 ^ 31 then ((x % 2 ^ 32 : Nat) : Int) else ((x % 2 ^ 32 : Nat) : Int) - 2 ^ 32

/-- The pattern of `x << k` computed in `int`, for a shift count `k < 32`. -/
def shl_int (x k : Nat) : Nat := (x <<< k) % 2 ^ 32

/-- The pattern of `~0` in `int`. -/
def NOT_ZERO : Nat := 0xFFFFFFFF

/-- The pattern of the `long` of `LONG_BIT` bits that an `int` of pattern `x`
converts to (sign extension). -/
def int_to_long (LONG_BIT x : Nat) : Nat :=
  if x % 2 ^ 32 < 2 ^ 31 then x % 2 ^ 32 else x % 2 ^ 32 + (2 ^ LONG_BIT - 2 ^ 32)

/-! ## Bit arrays -/

/-- Bit `i` of the bit array `p`: bit `i mod 32` of word `i div 32`. -/
def bit_is_set (p : List Nat) (i : Nat) : Bool := (p.getD (i / 32) 0).testBit (i % 32)

/-- Every word of the array is a 32-bit pattern. -/
def words32 (p : List Nat) : Prop := ∀ w, w ∈ p → w < 2 ^ 32

/-- Outcome of a run that may read outside its array or exhaust its budget. -/
inductive Run (α : Type) where
  | ret (a : α)
  | fault
  | spin
  deriving DecidableEq, Repr

/-! ## find_first_zero_bit (lines 78-94)

The counter `b` is an `int`: its arithmetic wraps, and `ptr[b >> 5]` with a
negative `b` is a read below the array.  The bound `max` is given by its
value, which is meant to lie in `0 .. INT_MAX`; the value returned is never
negative and is given as a natural number. -/

/-- `INT_MAX`. -/
def INT_MAX : Nat := 2147483647

/-- The `int` that a signed operation with mathematical result `z` yields
(two's complement wrap-around). -/
def wrap_int (z : Int) : Int := toInt32 (toU32 z)

/-- The word `ptr[i]` for an `int` index `i`: an index below the array or past
its end is outside it. -/
def word_at (p : List Nat) : Int → Option Nat
  | Int.ofNat n => p[n]?
  | Int.negSucc _ => none

/-- The inner `for (;;)` of `find_first_zero_bit` (lines 86-90), entered with
counter `b`.  `b >> 5` is an arithmetic shift and `b & 0x1f` a two's
complement and. -/
def find_first_zero_bit_inner (p : List Nat) : Nat → Int → Run Nat
  | 0, _ => Run.spin
  | fuel + 1, b =>
    match word_at p (Int.shiftRight b 5) with
    | none => Run.fault
    | some w =>
      if w &&& shl_int 1 (Int.land b 0x1f).toNat = 0 then Run.ret b.toNat
      else find_first_zero_bit_inner p fuel (wrap_int (b + 1))

/-- The outer `for (b = 0; b < max; b += 32)` of `find_first_zero_bit`
(lines 84-93), entered with counter `b`. -/
def find_first_zero_bit_outer (p : List Nat) (max : Nat) : Nat → Int → Run Nat
  | 0, _ => Run.spin
  | fuel + 1, b =>
    if b < (max : Int) then
      match word_at p (Int.shiftRight b 5) with
      | none => Run.fault
      | some w =>
        if w ≠ NOT_ZERO then find_first_zero_bit_inner p fuel b
        else find_first_zero_bit_outer p max fuel (wrap_int (b + 32))
    else Run.ret max

/-- `find_first_zero_bit(p, max)` with a budget of `fuel` loop tests. -/
def find_first_zero_bit (fuel : Nat) (p : List Nat) (max : Nat) : Run Nat :=
  find_first_zero_bit_outer p max fuel 0

/-- The result the specification promises for `find_first_zero_bit`: the
lowest index below `max` whose bit is clear, and `max` when there is none. -/
def first_zero_below (p : List Nat) (max : Nat) : Nat :=
  ((List.range max).find? (fun i => !bit_is_set p i)).getD max

/-! ## Host primitives

The header calls FreeBSD's native atomics (`machine/atomic.h`), which are not
part of it.  Each is one indivisible step on one word. -/

/-- Modelled from the spec: the host's `atomic_set_int(p, v)`, absent from this
header, the "atomic bit set" primitive: `*p |= v`.  Gives the new word. -/
def atomic_set_int (w v : Nat) : Nat := w ||| v

/-- Modelled from the spec: the host's `atomic_clear_int(p, v)`, absent from
this header, the "atomic bit clear" primitive: `*p &= ~v` on a 32-bit word.
Gives the new word. -/
def atomic_clear_int (w v : Nat) : Nat := w &&& (NOT_ZERO ^^^ v)

/-- Modelled from the spec: the host's compare-and-swap, absent from this
header: "replaces a memory location's value with a new one only if it
currently equals an expected value, reporting success/failure".  Gives the new
word and the report (nonzero for success). -/
def atomic_cmpset (w expect new : Nat) : Nat × Nat :=
  if w = expect then (new, 1) else (w, 0)

/-- Modelled from the spec: `atomic_cmpset_int`, compare-and-swap on a 32-bit
word. -/
def atomic_cmpset_int (w expect new : Nat) : Nat × Nat := atomic_cmpset w expect new

/-- Modelled from the spec: `atomic_cmpset_long`, compare-and-swap on a `long`. -/
def atomic_cmpset_long (w expect new : Nat) : Nat × Nat := atomic_cmpset w expect new

/-- Modelled from the spec: `atomic_cmpset_64`, compare-and-swap on a 64-bit
word. -/
def atomic_cmpset_64 (w expect new : Nat) : Nat × Nat := atomic_cmpset w expect new

/-- Modelled from the spec: the host's `atomic_fetchadd_int(p, v)`, absent from
this header, the fetch-and-add on a 32-bit word that returns the old value.
Gives the new word and the returned old word. -/
def atomic_fetchadd_int (w v : Nat) : Nat × Nat := ((w + v) % 2 ^ 32, w)

/-! ## Plain accessors (lines 40-41) -/

/-- `atomic_set(p, v)`: the word after `*(p) = (v)`. -/
def atomic_set (_w v : Nat) : Nat := v

/-- `atomic_read(p)`: `*(p)`. -/
def atomic_read (w : Nat) : Nat := w

/-! ## test_and_set_bit (lines 47-58) -/

/-- The retry loop of `test_and_set_bit` (lines 53-57) on the `long` word `w`,
with `bit` already computed.  Gives the returned `atomic_t` and the new word. -/
def test_and_set_bit_loop (bit : Nat) : Nat → Nat → Option (Nat × Nat)
  | 0, _ => none
  | fuel + 1, w =>
    let val := w
    match atomic_cmpset_long w val (val ||| bit) with
    | (w', 0) => test_and_set_bit_loop bit fuel w'
    | (w', _) => some (if val &&& bit ≠ 0 then 1 else 0, w')

/-- `test_and_set_bit(b, p)` on the `long` word `w` at `p`, where a `long` has
`LONG_BIT` bits.  `bit = 1 << b` is computed in `int` (both operands are
`int`) and then converted to `long`; a shift count of 32 or more has no
defined result. -/
def test_and_set_bit (LONG_BIT fuel b w : Nat) : Option (Nat × Nat) :=
  if b < 32 then test_and_set_bit_loop (int_to_long LONG_BIT (shl_int 1 b)) fuel w
  else none

/-! ## clear_bit, set_bit, test_bit (lines 60-76) -/

/-- `clear_bit(b, p)`: the array after the call. -/
def clear_bit (b : Nat) (p : List Nat) : Option (List Nat) :=
  match p[b >>> 5]? with
  | none => none
  | some w => some (p.set (b >>> 5) (atomic_clear_int w (shl_int 1 (b &&& 0x1f))))

/-- `set_bit(b, p)`: the array after the call. -/
def set_bit (b : Nat) (p : List Nat) : Option (List Nat) :=
  match p[b >>> 5]? with
  | none => none
  | some w => some (p.set (b >>> 5) (atomic_set_int w (shl_int 1 (b &&& 0x1f))))

/-- `test_bit(b, p)`: the returned `int`.  The function only reads `p`, so the
array after the call is the array before it. -/
def test_bit (b : Nat) (p : List Nat) : Option Int :=
  match p[b >>> 5]? with
  | none => none
  | some w => some (toInt32 (w &&& shl_int 1 (b &&& 0x1f)))

/-! ## atomic_xchg, atomic64_xchg (lines 96-118) -/

/-- `atomic_xchg(p, new)` on the word `w` at `p`: the returned old value and
the new word. -/
def atomic_xchg : Nat → Nat → Nat → Option (Nat × Nat)
  | 0, _, _ => none
  | fuel + 1, w, new =>
    let old := w
    match atomic_cmpset_int w old new with
    | (w', 0) => atomic_xchg fuel w' new
    | (w', _) => some (old, w')

/-- `atomic64_xchg(p, new)` on the 64-bit word `w` at `p`: the returned old
value and the new word. -/
def atomic64_xchg : Nat → Nat → Nat → Option (Nat × Nat)
  | 0, _, _ => none
  | fuel + 1, w, new =>
    let old := w
    match atomic_cmpset_64 w old new with
    | (w', 0) => atomic64_xchg fuel w' new
    | (w', _) => some (old, w')

/-- The calls `xchg(p, v1); ...; xchg(p, vn)` made one after the other on the
word `w`, each with budget `fuel`: the list of returned values and the final
word. -/
def xchg_calls (xchg : Nat → Nat → Nat → Option (Nat × Nat)) (fuel : Nat) :
    Nat → List Nat → Option (List Nat × Nat)
  | w, [] => some ([], w)
  | w, v :: vs =>
    match xchg fuel w v with
    | none => none
    | some (old, w') =>
      match xchg_calls xchg fuel w' vs with
      | none => none
      | some (rs, w'') => some (old :: rs, w'')

/-! ## atomic_add_return, atomic_sub_return (lines 120-135) -/

/-- `atomic_add_return(i, p)` on the word `w` at `p`: the returned `int` and
the new word.  In `i + atomic_fetchadd_int(p, i)` the `int` is converted to
`u_int` at both uses, the sum is taken in `u_int`, and the result is converted
to the `int` return type. -/
def atomic_add_return (i : Int) (w : Nat) : Int × Nat :=
  let (w', old) := atomic_fetchadd_int w (toU32 i)
  (toInt32 ((toU32 i + old) % 2 ^ 32), w')

/-- `atomic_sub_return(i, p)` on the word `w` at `p`: the returned `int` and
the new word.  `-i` is negated in `int` (wrapping at `INT_MIN`) and converted
to `u_int`; the difference `old - i` is taken in `u_int`. -/
def atomic_sub_return (i : Int) (w : Nat) : Int × Nat :=
  let (w', old) := atomic_fetchadd_int w (toU32 (toInt32 (toU32 (-i))))
  (toInt32 ((old + (2 ^ 32 - toU32 i)) % 2 ^ 32), w')

/-- `atomic_inc_return(v)` (line 134). -/
def atomic_inc_return (w : Nat) : Int × Nat := atomic_add_return 1 w

/-- `atomic_dec_return(v)` (line 135). -/
def atomic_dec_return (w : Nat) : Int × Nat := atomic_sub_return 1 w

/-! ## atomic_inc, atomic_dec, atomic_add, atomic_sub (lines 42-45) -/

/-- Modelled from the spec: the host's `atomic_add_int(p, v)`, absent from this
header, the atomic add on a 32-bit word: `*p += v`.  Gives the new word. -/
def atomic_add_int (w v : Nat) : Nat := (w + v) % 2 ^ 32

/-- Modelled from the spec: the host's `atomic_subtract_int(p, v)`, absent from
this header, the atomic subtract on a 32-bit word: `*p -= v`.  Gives the new
word. -/
def atomic_subtract_int (w v : Nat) : Nat := (w + (2 ^ 32 - v % 2 ^ 32)) % 2 ^ 32

/-- `atomic_inc(p)`: the word after the call. -/
def atomic_inc (w : Nat) : Nat := atomic_add_int w 1

/-- `atomic_dec(p)`: the word after the call. -/
def atomic_dec (w : Nat) : Nat := atomic_subtract_int w 1

/-- `atomic_add(n, p)`: the word after the call; the `int` `n` converts to
`u_int`. -/
def atomic_add (n : Int) (w : Nat) : Nat := atomic_add_int w (toU32 n)

/-- `atomic_sub(n, p)`: the word after the call; the `int` `n` converts to
`u_int`. -/
def atomic_sub (n : Int) (w : Nat) : Nat := atomic_subtract_int w (toU32 n)

/-- One of the two operations of a counter: `atomic_inc` or `atomic_dec`. -/
inductive IncDec where
  | inc
  | dec
  deriving DecidableEq, Repr

/-- The word after one operation, which takes effect as one indivisible step. -/
def IncDec.apply : IncDec → Nat → Nat
  | IncDec.inc, w => atomic_inc w
  | IncDec.dec, w => atomic_dec w

/-- The word after the operations `ops` have taken effect in the order of the
list. -/
def run_inc_dec (w : Nat) (ops : List IncDec) : Nat :=
  ops.foldl (fun acc op => op.apply acc) w

/-! ## atomic_sub_and_test, atomic_dec_and_test, atomic_inc_and_test (lines 137-139) -/

/-- `atomic_sub_and_test(i, v)`: the value of the expression and the new word. -/
def atomic_sub_and_test (i : Int) (w : Nat) : Bool × Nat :=
  let (r, w') := atomic_sub_return i w
  (decide (r = 0), w')

/-- `atomic_dec_and_test(v)`: the value of the expression and the new word. -/
def atomic_dec_and_test (w : Nat) : Bool × Nat :=
  let (r, w') := atomic_dec_return w
  (decide (r = 0), w')

/-- `atomic_inc_and_test(v)`: the value of the expression and the new word. -/
def atomic_inc_and_test (w : Nat) : Bool × Nat :=
  let (r, w') := atomic_inc_return w
  (decide (r = 0), w')

/-! ## BITS_TO_LONGS (line 141) -/

/-- Modelled from the spec: `NBBY` (`sys/param.h`), absent from this header,
the number of bits in a byte. -/
def NBBY : Nat := 8

/-- Modelled from the spec: the macro `howmany(x, y)` (`sys/param.h`), absent
from this header, the "ceiling division" `((x) + ((y) - 1)) / (y)`, evaluated
in an unsigned type of `width` bits. -/
def howmany (width x y : Nat) : Nat := ((x + (y - 1)) % 2 ^ width) / y

/-- `BITS_TO_LONGS(x)` where `sizeof(long)` is `sizeof_long` bytes.  The
operand `NBBY * sizeof(long)` has type `size_t`, which is as wide as a `long`,
so the arithmetic is unsigned of that width. -/
def BITS_TO_LONGS (sizeof_long x : Nat) : Nat :=
  howmany (NBBY * sizeof_long) x (NBBY * sizeof_long)

/-! ## find_first_zero_bit with its reads recorded -/

/-- A read `ptr[k]` by `find_first_zero_bit`, inside the array or not: by the
test of the outer loop (line 85) or by the test of the inner loop (line 87). -/
inductive Read where
  | outer (k : Int)
  | inner (k : Int)
  deriving DecidableEq, Repr

/-- The index of the word that is read. -/
def Read.word : Read → Int
  | Read.outer k => k
  | Read.inner k => k

/-- The inner loop as in `find_first_zero_bit_inner`, giving also the reads it
makes, in order. -/
def find_first_zero_bit_inner_traced (p : List Nat) : Nat → Int → List Read × Run Nat
  | 0, _ => ([], Run.spin)
  | fuel + 1, b =>
    match word_at p (Int.shiftRight b 5) with
    | none => ([Read.inner (Int.shiftRight b 5)], Run.fault)
    | some w =>
      if w &&& shl_int 1 (Int.land b 0x1f).toNat = 0 then
        ([Read.inner (Int.shiftRight b 5)], Run.ret b.toNat)
      else
        (Read.inner (Int.shiftRight b 5) ::
            (find_first_zero_bit_inner_traced p fuel (wrap_int (b + 1))).1,
          (find_first_zero_bit_inner_traced p fuel (wrap_int (b + 1))).2)

/-- The outer loop as in `find_first_zero_bit_outer`, giving also the reads it
makes, in order. -/
def find_first_zero_bit_outer_traced (p : List Nat) (max : Nat) :
    Nat → Int → List Read × Run Nat
  | 0, _ => ([], Run.spin)
  | fuel + 1, b =>
    if b < (max : Int) then
      match word_at p (Int.shiftRight b 5) with
      | none => ([Read.outer (Int.shiftRight b 5)], Run.fault)
      | some w =>
        if w ≠ NOT_ZERO then
          (Read.outer (Int.shiftRight b 5) :: (find_first_zero_bit_inner_traced p fuel b).1,
            (find_first_zero_bit_inner_traced p fuel b).2)
        else
          (Read.outer (Int.shiftRight b 5) ::
              (find_first_zero_bit_outer_traced p max fuel (wrap_int (b + 32))).1,
            (find_first_zero_bit_outer_traced p max fuel (wrap_int (b + 32))).2)
    else ([], Run.ret max)

/-- `find_first_zero_bit(p, max)` with the reads it makes, in order. -/
def find_first_zero_bit_traced (fuel : Nat) (p : List Nat) (max : Nat) : List Read × Run Nat :=
  find_first_zero_bit_outer_traced p max fuel 0

/-! ## Sequences of writes to a bit array -/

/-- A write to a bit array through this header: `set_bit(b, p)` or
`clear_bit(b, p)`. -/
inductive BitOp where
  | set (b : Nat)
  | clear (b : Nat)
  deriving DecidableEq, Repr

/-- The array after one write. -/
def BitOp.apply : BitOp → List Nat → Option (List Nat)
  | BitOp.set b, p => set_bit b p
  | BitOp.clear b, p => clear_bit b p

/-- The array after the writes `ops` made one after the other. -/
def run_bit_ops : List Nat → List BitOp → Option (List Nat)
  | p, [] => some p
  | p, op :: ops =>
    match op.apply p with
    | none => none
    | some q => run_bit_ops q ops

/-! ## Concurrent callers of test_and_set_bit

Each caller of `test_and_set_bit(b, p)` alternates two indivisible steps on
the shared word: the plain read of line 54 and the compare-and-swap of line
55.  A schedule names the caller that takes the next step. -/

/-- Where a caller of `test_and_set_bit` stands: about to read the word
(line 54), about to compare-and-swap with the value `val` it read (line 55),
or returned with result `r` (line 57). -/
inductive Caller where
  | reading
  | swapping (val : Nat)
  | returned (r : Nat)
  deriving DecidableEq, Repr

/-- One step of a caller on the shared word `w`, with `bit` as computed at
line 52: the new word and where the caller stands afterwards. -/
def caller_step (bit w : Nat) : Caller → Nat × Caller
  | Caller.reading => (w, Caller.swapping w)
  | Caller.swapping val =>
    match atomic_cmpset_long w val (val ||| bit) with
    | (w', 0) => (w', Caller.reading)
    | (w', _) => (w', Caller.returned (if val &&& bit ≠ 0 then 1 else 0))
  | Caller.returned r => (w, Caller.returned r)

/-- The shared word and the callers. -/
structure Shared where
  word : Nat
  callers : List Caller
  deriving DecidableEq, Repr

/-- Caller `i` takes one step (nothing happens when there is no caller `i`). -/
def shared_step (bit : Nat) (s : Shared) (i : Nat) : Shared :=
  match s.callers[i]? with
  | none => s
  | some c =>
    { word := (caller_step bit s.word c).1,
      callers := s.callers.set i (caller_step bit s.word c).2 }

/-- The steps of a schedule, taken in order. -/
def shared_run (bit : Nat) (s : Shared) (sched : List Nat) : Shared :=
  sched.foldl (shared_step bit) s

/-- `N` callers of `test_and_set_bit(b, p)` on the `long` word `w` of
`LONG_BIT` bits, interleaved as `sched` says: the word and the callers after
the schedule.  As in `test_and_set_bit`, the mask is `1 << b` computed in
`int` and converted to `long`. -/
def test_and_set_bit_race (LONG_BIT b w N : Nat) (sched : List Nat) : Option Shared :=
  if b < 32 then
    some (shared_run (int_to_long LONG_BIT (shl_int 1 b))
      { word := w, callers := List.replicate N Caller.reading } sched)
  else none

/-- What holds of every state that `N` racing callers can reach from a word
`w0`: the word is `w0` or `w0 | bit`; a caller about to swap holds one of the
two, the second only once it is in the word; a caller has returned only once
the word is `w0 | bit`, and with 0 or 1; and exactly one caller has returned 0
once the word is `w0 | bit`. -/
def race_inv (w0 bit : Nat) (s : Shared) : Prop :=
  (s.word = w0 ∨ s.word = w0 ||| bit) ∧
  (∀ (i v : Nat), s.callers[i]? = some (Caller.swapping v) →
    v = w0 ∨ (v = w0 ||| bit ∧ s.word = w0 ||| bit)) ∧
  (∀ (i r : Nat), s.callers[i]? = some (Caller.returned r) →
    s.word = w0 ||| bit ∧ (r = 0 ∨ r = 1)) ∧
  (s.word = w0 ||| bit → ∃ i : Nat, s.callers[i]? = some (Caller.returned 0)) ∧
  (∀ (i j : Nat), s.callers[i]? = some (Caller.returned 0) →
    s.callers[j]? = some (Caller.returned 0) → i = j)

/-! ## Theorems -/

theorem shiftRight_five (b : Nat) : b >>> 5 = b / 32 := by
  rw [Nat.shiftRight_eq_div_pow]

theorem and_thirty_one (b : Nat) : b &&& 0x1f = b % 32 := by
  have h := Nat.and_pow_two_sub_one_eq_mod b 5
  simpa using h

/-! ### Single-bit masks -/

theorem shl_int_one (k : Nat) (hk : k < 32) : shl_int 1 k = 2 ^ k := by
  unfold shl_int
  rw [Nat.one_shiftLeft]
  exact Nat.mod_eq_of_lt (Nat.pow_lt_pow_right (by decide) hk)

theorem mask_eq (b : Nat) : shl_int 1 (b &&& 0x1f) = 2 ^ (b % 32) := by
  rw [and_thirty_one]
  exact shl_int_one _ (Nat.mod_lt _ (by decide))

theorem and_two_pow (w k : Nat) : w &&& 2 ^ k = if w.testBit k then 2 ^ k else 0 := by
  apply Nat.eq_of_testBit_eq
  intro i
  rw [Nat.testBit_and, Nat.testBit_two_pow]
  by_cases hki : k = i
  · subst hki
    cases h : w.testBit k <;> simp [Nat.testBit_two_pow_self]
  · cases h : w.testBit k <;> simp [hki, Nat.testBit_two_pow]

theorem two_pow_lt (k : Nat) (hk : k < 32) : 2 ^ k < 2 ^ 32 :=
  Nat.pow_lt_pow_right (by decide) hk

theorem toInt32_eq_zero (x : Nat) (hx : x < 2 ^ 32) : toInt32 x = 0 ↔ x = 0 := by
  unfold toInt32
  rw [Nat.mod_eq_of_lt hx]
  split <;> omega

theorem toInt32_zero : toInt32 0 = 0 := by decide

theorem toInt32_two_pow_ne_zero (k : Nat) (hk : k < 32) : toInt32 (2 ^ k) ≠ 0 := by
  intro h
  have h0 := (toInt32_eq_zero _ (two_pow_lt k hk)).1 h
  have hpos : 0 < 2 ^ k := Nat.pos_pow_of_pos k (by decide)
  omega

theorem testBit_not_mask (k j : Nat) (hj : j < 32) :
    (NOT_ZERO ^^^ 2 ^ k).testBit j = decide (k ≠ j) := by
  have h : NOT_ZERO = 2 ^ 32 - 1 := by decide
  rw [Nat.testBit_xor, h, Nat.testBit_two_pow_sub_one, Nat.testBit_two_pow]
  by_cases hkj : k = j <;> simp [hkj, hj]

theorem testBit_set_mask (w k j : Nat) :
    (atomic_set_int w (2 ^ k)).testBit j = (w.testBit j || decide (k = j)) := by
  unfold atomic_set_int
  rw [Nat.testBit_or, Nat.testBit_two_pow]

theorem testBit_clear_mask (w k j : Nat) (hj : j < 32) :
    (atomic_clear_int w (2 ^ k)).testBit j = (w.testBit j && decide (k ≠ j)) := by
  unfold atomic_clear_int
  rw [Nat.testBit_and, testBit_not_mask k j hj]

/-! ### The three bit operations, unfolded -/

theorem set_bit_eq (b : Nat) (p : List Nat) (w : Nat) (hw : p[b / 32]? = some w) :
    set_bit b p = some (p.set (b / 32) (atomic_set_int w (2 ^ (b % 32)))) := by
  unfold set_bit
  rw [mask_eq, shiftRight_five, hw]

theorem clear_bit_eq (b : Nat) (p : List Nat) (w : Nat) (hw : p[b / 32]? = some w) :
    clear_bit b p = some (p.set (b / 32) (atomic_clear_int w (2 ^ (b % 32)))) := by
  unfold clear_bit
  rw [mask_eq, shiftRight_five, hw]

theorem test_bit_eq (b : Nat) (p : List Nat) (w : Nat) (hw : p[b / 32]? = some w) :
    test_bit b p = some (if w.testBit (b % 32) then toInt32 (2 ^ (b % 32)) else 0) := by
  unfold test_bit
  rw [mask_eq, shiftRight_five, hw]
  show some (toInt32 (w &&& 2 ^ (b % 32))) = _
  rw [and_two_pow]
  cases h : w.testBit (b % 32) <;> simp [toInt32_zero]

theorem test_bit_none (b : Nat) (p : List Nat) (hw : p[b / 32]? = none) :
    test_bit b p = none := by
  unfold test_bit
  rw [shiftRight_five, hw]

theorem bit_is_set_eq (p : List Nat) (i w : Nat) (hw : p[i / 32]? = some w) :
    bit_is_set p i = w.testBit (i % 32) := by
  unfold bit_is_set
  rw [List.getD_eq_getElem?_getD, hw]
  rfl

theorem getElem?_of_lt (p : List Nat) (i : Nat) (h : i < p.length) :
    p[i]? = some (p.getD i 0) := by
  rw [List.getD_eq_getElem?_getD, List.getElem?_eq_getElem h]
  rfl

/-! ### The counter of find_first_zero_bit -/

theorem shiftRight_five_int (n : Nat) : Int.shiftRight (n : Int) 5 = ((n / 32 : Nat) : Int) := by
  show Int.ofNat (n >>> 5) = _
  rw [shiftRight_five]
  rfl

theorem word_at_nat (p : List Nat) (n : Nat) :
    word_at p (Int.shiftRight (n : Int) 5) = p[n / 32]? := by
  rw [shiftRight_five_int]
  rfl

theorem mask_int_eq (n : Nat) : shl_int 1 (Int.land (n : Int) 0x1f).toNat = 2 ^ (n % 32) := by
  have h : Int.land (n : Int) 0x1f = ((n &&& 0x1f : Nat) : Int) := rfl
  rw [h, Int.toNat_ofNat]
  exact mask_eq n

theorem wrap_int_nat (n : Nat) (h : n < 2 ^ 31) : wrap_int (n : Int) = (n : Int) := by
  unfold wrap_int toInt32 toU32
  split <;> omega

theorem wrap_int_succ (n : Nat) (h : n + 1 < 2 ^ 31) :
    wrap_int ((n : Int) + 1) = ((n + 1 : Nat) : Int) := by
  rw [← wrap_int_nat (n + 1) h]
  rfl

theorem wrap_int_add_32 (n : Nat) (h : n + 32 < 2 ^ 31) :
    wrap_int ((n : Int) + 32) = ((n + 32 : Nat) : Int) := by
  rw [← wrap_int_nat (n + 32) h]
  rfl

theorem word_at_some_nat (p : List Nat) (b : Int) (w : Nat)
    (h : word_at p (Int.shiftRight b 5) = some w) : ∃ n : Nat, b = (n : Int) := by
  cases b with
  | ofNat n => exact ⟨n, rfl⟩
  | negSucc m =>
    have hnone : word_at p (Int.shiftRight (Int.negSucc m) 5) = none := rfl
    rw [hnone] at h
    cases h

/-! ### One step of the loops at a non-negative counter -/

theorem inner_nat_none (p : List Nat) (fuel n : Nat) (hw : p[n / 32]? = none) :
    find_first_zero_bit_inner p (fuel + 1) (n : Int) = Run.fault := by
  unfold find_first_zero_bit_inner
  rw [word_at_nat, hw]

theorem inner_nat_hit (p : List Nat) (fuel n w : Nat) (hw : p[n / 32]? = some w)
    (hbit : w.testBit (n % 32) = false) :
    find_first_zero_bit_inner p (fuel + 1) (n : Int) = Run.ret n := by
  unfold find_first_zero_bit_inner
  rw [word_at_nat, hw]
  simp only
  rw [mask_int_eq, and_two_pow, hbit]
  simp

theorem inner_nat_miss (p : List Nat) (fuel n w : Nat) (hw : p[n / 32]? = some w)
    (hbit : w.testBit (n % 32) = true) :
    find_first_zero_bit_inner p (fuel + 1) (n : Int) =
      find_first_zero_bit_inner p fuel (wrap_int ((n : Int) + 1)) := by
  have hpos : 0 < 2 ^ (n % 32) := Nat.pos_pow_of_pos _ (by decide)
  rw [find_first_zero_bit_inner, word_at_nat, hw]
  simp only
  rw [mask_int_eq, and_two_pow, hbit, if_pos rfl, if_neg (by omega)]

theorem outer_nat_done (p : List Nat) (max fuel n : Nat) (hn : ¬ n < max) :
    find_first_zero_bit_outer p max (fuel + 1) (n : Int) = Run.ret max := by
  unfold find_first_zero_bit_outer
  rw [if_neg (by omega)]

theorem outer_nat_none (p : List Nat) (max fuel n : Nat) (hn : n < max)
    (hw : p[n / 32]? = none) :
    find_first_zero_bit_outer p max (fuel + 1) (n : Int) = Run.fault := by
  unfold find_first_zero_bit_outer
  rw [if_pos (by omega), word_at_nat, hw]

theorem outer_nat_enter (p : List Nat) (max fuel n w : Nat) (hn : n < max)
    (hw : p[n / 32]? = some w) (hne : w ≠ NOT_ZERO) :
    find_first_zero_bit_outer p max (fuel + 1) (n : Int) =
      find_first_zero_bit_inner p fuel (n : Int) := by
  rw [find_first_zero_bit_outer, if_pos (by omega), word_at_nat, hw]
  simp only
  rw [if_pos hne]

theorem outer_nat_skip (p : List Nat) (max fuel n : Nat) (hn : n < max)
    (hw : p[n / 32]? = some NOT_ZERO) :
    find_first_zero_bit_outer p max (fuel + 1) (n : Int) =
      find_first_zero_bit_outer p max fuel (wrap_int ((n : Int) + 32)) := by
  rw [find_first_zero_bit_outer, if_pos (by omega), word_at_nat, hw]
  simp only
  rw [if_neg (fun h => h rfl)]

/-! ### find_first_zero_bit -/

theorem outer_all_ones (p : List Nat) (max : Nat) (hmax : max ≤ 2147483616)
    (hall : ∀ i, i < (max + 31) / 32 → p[i]? = some NOT_ZERO) :
    ∀ fuel k, k ≤ (max + 31) / 32 → (max + 31) / 32 - k + 1 ≤ fuel →
      find_first_zero_bit_outer p max fuel ((32 * k : Nat) : Int) = Run.ret max := by
  intro fuel
  induction fuel with
  | zero => intro k _ hf; omega
  | succ n ih =>
    intro k hk hf
    by_cases hb : 32 * k < max
    · have hk2 : k < (max + 31) / 32 := by omega
      have hw : p[32 * k / 32]? = some NOT_ZERO := by
        have : 32 * k / 32 = k := by omega
        rw [this]
        exact hall k hk2
      rw [outer_nat_skip p max n (32 * k) hb hw, wrap_int_add_32 (32 * k) (by omega)]
      have h32 : 32 * k + 32 = 32 * (k + 1) := by ring
      rw [h32]
      exact ih (k + 1) (by omega) (by omega)
    · exact outer_nat_done p max n (32 * k) hb

/-- C2: for a bound `max` of at most `INT_MAX - 31`, when every word with
index below `ceil(max / 32)` is all ones, `find_first_zero_bit(p, max)`
returns exactly `max` (any budget of at least `max / 32 + 2` loop tests is
enough). -/
theorem find_first_zero_bit_all_ones (p : List Nat) (max fuel : Nat)
    (hmax : max ≤ INT_MAX - 31)
    (hall : ∀ i, i < (max + 31) / 32 → p[i]? = some 0xFFFFFFFF)
    (hfuel : max / 32 + 2 ≤ fuel) :
    find_first_zero_bit fuel p max = Run.ret max := by
  have hm : max ≤ 2147483616 := hmax
  have h := outer_all_ones p max hm hall fuel 0 (Nat.zero_le _) (by omega)
  exact h

theorem find_first_zero_bit_all_ones_witness :
    40 ≤ INT_MAX - 31 ∧
    (∀ i, i < (40 + 31) / 32 → [0xFFFFFFFF, 0xFFFFFFFF, 5][i]? = some 0xFFFFFFFF) ∧
    40 / 32 + 2 ≤ 3 ∧
    find_first_zero_bit 3 [0xFFFFFFFF, 0xFFFFFFFF, 5] 40 = Run.ret 40 :=
  ⟨by decide, by decide, by decide,
    find_first_zero_bit_all_ones [0xFFFFFFFF, 0xFFFFFFFF, 5] 40 3 (by decide) (by decide)
      (by decide)⟩

theorem inner_fuel_mono (p : List Nat) (r : Nat) :
    ∀ n m (b : Int), n ≤ m → find_first_zero_bit_inner p n b = Run.ret r →
      find_first_zero_bit_inner p m b = Run.ret r := by
  intro n
  induction n with
  | zero => intro m b _ h; simp [find_first_zero_bit_inner] at h
  | succ n ih =>
    intro m b hnm h
    obtain ⟨m, rfl⟩ : ∃ k, m = k + 1 := ⟨m - 1, by omega⟩
    unfold find_first_zero_bit_inner at h ⊢
    cases hw : word_at p (Int.shiftRight b 5) with
    | none => rw [hw] at h; simp at h
    | some w =>
      rw [hw] at h
      simp only at h ⊢
      by_cases hz : w &&& shl_int 1 (Int.land b 0x1f).toNat = 0
      · rw [if_pos hz] at h ⊢; exact h
      · rw [if_neg hz] at h ⊢; exact ih m _ (by omega) h

theorem outer_fuel_mono (p : List Nat) (max r : Nat) :
    ∀ n m (b : Int), n ≤ m → find_first_zero_bit_outer p max n b = Run.ret r →
      find_first_zero_bit_outer p max m b = Run.ret r := by
  intro n
  induction n with
  | zero => intro m b _ h; simp [find_first_zero_bit_outer] at h
  | succ n ih =>
    intro m b hnm h
    obtain ⟨m, rfl⟩ : ∃ k, m = k + 1 := ⟨m - 1, by omega⟩
    unfold find_first_zero_bit_outer at h ⊢
    by_cases hb : b < (max : Int)
    · rw [if_pos hb] at h ⊢
      cases hw : word_at p (Int.shiftRight b 5) with
      | none => rw [hw] at h; simp at h
      | some w =>
        rw [hw] at h
        simp only at h ⊢
        by_cases hz : w ≠ NOT_ZERO
        · rw [if_pos hz] at h ⊢; exact inner_fuel_mono p r n m b (by omega) h
        · rw [if_neg hz] at h ⊢; exact ih m _ (by omega) h
    · rw [if_neg hb] at h ⊢; exact h

theorem find_first_zero_bit_fuel_mono (p : List Nat) (max r n m : Nat) (hnm : n ≤ m)
    (h : find_first_zero_bit n p max = Run.ret r) :
    find_first_zero_bit m p max = Run.ret r :=
  outer_fuel_mono p max r n m 0 hnm h

/-! ### The scan inside a candidate word -/

theorem exists_clear_bit (w : Nat) (hw : w < 2 ^ 32) (hne : w ≠ NOT_ZERO) :
    ∃ j, j < 32 ∧ w.testBit j = false := by
  by_contra hcon
  apply hne
  apply Nat.eq_of_testBit_eq
  intro i
  have hN : NOT_ZERO = 2 ^ 32 - 1 := by decide
  rw [hN, Nat.testBit_two_pow_sub_one]
  by_cases hi : i < 32
  · rw [decide_eq_true hi]
    cases hb : w.testBit i
    · exact absurd ⟨i, hi, hb⟩ hcon
    · rfl
  · rw [decide_eq_false hi]
    apply Nat.testBit_lt_two_pow
    exact Nat.lt_of_lt_of_le hw (Nat.pow_le_pow_right (by decide) (by omega))

theorem exists_lowest_clear_bit (w : Nat) (hw : w < 2 ^ 32) (hne : w ≠ NOT_ZERO) :
    ∃ j, j < 32 ∧ w.testBit j = false ∧ ∀ i, i < j → w.testBit i = true := by
  classical
  have hex : ∃ j, j < 32 ∧ w.testBit j = false := exists_clear_bit w hw hne
  refine ⟨Nat.find hex, (Nat.find_spec hex).1, (Nat.find_spec hex).2, fun i hi => ?_⟩
  have hmin := Nat.find_min hex hi
  cases hb : w.testBit i
  · exact absurd ⟨by have := (Nat.find_spec hex).1; omega, hb⟩ hmin
  · rfl

theorem and_mask_eq_zero (w b : Nat) :
    w &&& shl_int 1 (b &&& 0x1f) = 0 ↔ w.testBit (b % 32) = false := by
  rw [mask_eq, and_two_pow]
  have hpos : 0 < 2 ^ (b % 32) := Nat.pos_pow_of_pos _ (by decide)
  cases h : w.testBit (b % 32)
  · simp
  · simp only [if_true]
    constructor
    · intro h0; omega
    · intro h0; cases h0

theorem inner_scan (p : List Nat) (k w j0 : Nat) (hw : p[k]? = some w) (hj0 : j0 < 32)
    (hk : 32 * k + 32 ≤ 2 ^ 31)
    (hclear : w.testBit j0 = false) (hset : ∀ i, i < j0 → w.testBit i = true) :
    ∀ fuel j, j ≤ j0 → j0 - j + 1 ≤ fuel →
      find_first_zero_bit_inner p fuel ((32 * k + j : Nat) : Int) = Run.ret (32 * k + j0) := by
  intro fuel
  induction fuel with
  | zero => intro j _ hf; omega
  | succ n ih =>
    intro j hj hf
    have hidx : (32 * k + j) / 32 = k := by omega
    have hmod : (32 * k + j) % 32 = j := by omega
    have hwj : p[(32 * k + j) / 32]? = some w := by rw [hidx]; exact hw
    by_cases hjj : j = j0
    · subst hjj
      exact inner_nat_hit p n _ w hwj (by rw [hmod]; exact hclear)
    · have hlt : j < j0 := by omega
      rw [inner_nat_miss p n _ w hwj (by rw [hmod]; exact hset j hlt),
        wrap_int_succ (32 * k + j) (by omega)]
      exact ih (j + 1) (by omega) (by omega)

theorem bit_is_set_all_ones (p : List Nat) (k i : Nat) (hw : p[k]? = some NOT_ZERO)
    (hlo : 32 * k ≤ i) (hhi : i < 32 * (k + 1)) : bit_is_set p i = true := by
  have hik : i / 32 = k := by omega
  have hN : NOT_ZERO = 2 ^ 32 - 1 := by decide
  rw [bit_is_set_eq p i NOT_ZERO (by rw [hik]; exact hw), hN, Nat.testBit_two_pow_sub_one]
  exact decide_eq_true (Nat.mod_lt _ (by decide))

theorem outer_scan (p : List Nat) (max : Nat) (hmax : max ≤ 2147483616) (hwf : words32 p)
    (hlen : (max + 31) / 32 ≤ p.length) :
    ∀ fuel k, k ≤ (max + 31) / 32 → (max + 31) / 32 - k + 33 ≤ fuel →
      (∀ i, i < 32 * k → bit_is_set p i = true) →
      ∃ r, find_first_zero_bit_outer p max fuel ((32 * k : Nat) : Int) = Run.ret r ∧
        (∀ i, i < r → bit_is_set p i = true) ∧
        (r = max ∨ (r < 32 * ((max + 31) / 32) ∧ bit_is_set p r = false)) := by
  intro fuel
  induction fuel with
  | zero => intro k _ hf; omega
  | succ n ih =>
    intro k hk hf hbelow
    by_cases hb : 32 * k < max
    · have hk2 : k < (max + 31) / 32 := by omega
      have hkl : k < p.length := by omega
      have hw := getElem?_of_lt p k hkl
      have hidx : 32 * k / 32 = k := by omega
      have hwk : p[32 * k / 32]? = some (p.getD k 0) := by rw [hidx]; exact hw
      by_cases hones : p.getD k 0 = NOT_ZERO
      · rw [hones] at hwk
        rw [outer_nat_skip p max n (32 * k) hb hwk, wrap_int_add_32 (32 * k) (by omega)]
        have h32 : 32 * k + 32 = 32 * (k + 1) := by ring
        rw [h32]
        refine ih (k + 1) (by omega) (by omega) (fun i hi => ?_)
        by_cases hlo : i < 32 * k
        · exact hbelow i hlo
        · exact bit_is_set_all_ones p k i (by rw [hw, hones]) (by omega) hi
      · rw [outer_nat_enter p max n (32 * k) _ hb hwk hones]
        have hw32 : p.getD k 0 < 2 ^ 32 := by
          apply hwf
          rw [List.getD_eq_getElem?_getD, List.getElem?_eq_getElem hkl]
          exact List.getElem_mem hkl
        obtain ⟨j0, hj0, hclear, hset⟩ := exists_lowest_clear_bit _ hw32 hones
        have hrun := inner_scan p k _ j0 hw hj0 (by omega) hclear hset n 0 (Nat.zero_le _)
          (by omega)
        refine ⟨32 * k + j0, hrun, fun i hi => ?_, Or.inr ⟨by omega, ?_⟩⟩
        · by_cases hlo : i < 32 * k
          · exact hbelow i hlo
          · have hik : i / 32 = k := by omega
            rw [bit_is_set_eq p i _ (by rw [hik]; exact hw)]
            exact hset _ (by omega)
        · have hik : (32 * k + j0) / 32 = k := by omega
          have hmod : (32 * k + j0) % 32 = j0 := by omega
          rw [bit_is_set_eq p _ _ (by rw [hik]; exact hw), hmod]
          exact hclear
    · rw [outer_nat_done p max n (32 * k) hb]
      exact ⟨max, rfl, fun i hi => hbelow i (by omega), Or.inl rfl⟩

theorem find_first_zero_bit_scan (p : List Nat) (max fuel : Nat) (hmax : max ≤ 2147483616)
    (hwf : words32 p) (hlen : (max + 31) / 32 ≤ p.length)
    (hfuel : (max + 31) / 32 + 33 ≤ fuel) :
    ∃ r, find_first_zero_bit fuel p max = Run.ret r ∧
      (∀ i, i < r → bit_is_set p i = true) ∧
      (r = max ∨ (r < 32 * ((max + 31) / 32) ∧ bit_is_set p r = false)) :=
  outer_scan p max hmax hwf hlen fuel 0 (Nat.zero_le _) (by omega) (fun i hi => by omega)

theorem first_zero_below_eq (p : List Nat) (max r : Nat) (hr : r ≤ max)
    (hset : ∀ i, i < r → bit_is_set p i = true)
    (hclr : r = max ∨ bit_is_set p r = false) : first_zero_below p max = r := by
  unfold first_zero_below
  by_cases hrm : r = max
  · subst hrm
    have hnone : (List.range r).find? (fun i => !bit_is_set p i) = none := by
      rw [List.find?_range_eq_none]
      intro i hi
      simp [hset i hi]
    rw [hnone]
    rfl
  · have hc : bit_is_set p r = false := by
      rcases hclr with h | h
      · exact absurd h hrm
      · exact h
    have hsome : (List.range max).find? (fun i => !bit_is_set p i) = some r := by
      rw [List.find?_range_eq_some]
      refine ⟨by simp [hc], List.mem_range.2 (by omega), fun j hj => ?_⟩
      simp [hset j hj]
    rw [hsome]
    rfl

theorem find_first_zero_bit_below (p : List Nat) (max fuel i : Nat) (hmax : max ≤ 2147483616)
    (hwf : words32 p) (hlen : (max + 31) / 32 ≤ p.length)
    (hfuel : (max + 31) / 32 + 33 ≤ fuel)
    (hi : i < max) (hclear : bit_is_set p i = false) :
    find_first_zero_bit fuel p max = Run.ret (first_zero_below p max) ∧
      first_zero_below p max ≤ i := by
  obtain ⟨r, hrun, hset, hr⟩ := find_first_zero_bit_scan p max fuel hmax hwf hlen hfuel
  have hri : r ≤ i := by
    by_contra hcon
    have := hset i (by omega)
    rw [hclear] at this
    cases this
  have hclr : r = max ∨ bit_is_set p r = false := by
    rcases hr with h | h
    · exact Or.inl h
    · exact Or.inr h.2
  rw [first_zero_below_eq p max r (by omega) hset hclr]
  exact ⟨hrun, hri⟩

/-- C1: at `p = [0xFFFFFFBF]`, `max = 5` no bit below `max` is clear (the
lowest clear bit is bit 6), so the claimed result is `max = 5`; the scan
returns `6`, and returns `5` under no budget.  The inner loop tests no bound
and reports the first clear bit of the last, partly covered word. -/
theorem find_first_zero_bit_overshoot :
    first_zero_below [0xFFFFFFBF] 5 = 5 ∧
    find_first_zero_bit 8 [0xFFFFFFBF] 5 = Run.ret 6 ∧
    ∀ fuel, find_first_zero_bit fuel [0xFFFFFFBF] 5 ≠ Run.ret 5 := by
  refine ⟨by decide, by decide, fun fuel h => ?_⟩
  have h5 := find_first_zero_bit_fuel_mono _ _ _ fuel (fuel + 8) (by omega) h
  have h6 := find_first_zero_bit_fuel_mono [0xFFFFFFBF] 5 6 8 (fuel + 8) (by omega) (by decide)
  rw [h5] at h6
  cases h6


/-! ### The counter wraps when `max` exceeds `INT_MAX - 31` -/

theorem outer_negative (p : List Nat) (max : Nat) :
    ∀ fuel, (∀ r, find_first_zero_bit_outer p max fuel (-2147483648) ≠ Run.ret r) ∧
      (1 ≤ fuel → find_first_zero_bit_outer p max fuel (-2147483648) = Run.fault) := by
  intro fuel
  cases fuel with
  | zero =>
    refine ⟨fun r h => ?_, fun h => by omega⟩
    simp [find_first_zero_bit_outer] at h
  | succ n =>
    have hlt : (-2147483648 : Int) < (max : Int) := by omega
    have hnone : word_at p (Int.shiftRight (-2147483648) 5) = none := rfl
    have hrun : find_first_zero_bit_outer p max (n + 1) (-2147483648) = Run.fault := by
      rw [find_first_zero_bit_outer, if_pos hlt, hnone]
    rw [hrun]
    exact ⟨fun r h => Run.noConfusion h, fun _ => rfl⟩

theorem wrap_int_at_int_max (k : Nat) (hk : k = 67108863) :
    wrap_int (((32 * k : Nat) : Int) + 32) = -2147483648 := by
  subst hk
  decide

theorem outer_all_ones_wraps (p : List Nat) (max : Nat)
    (hall : ∀ k, k < 67108864 → p[k]? = some NOT_ZERO) (hmax : 2147483616 < max) :
    ∀ fuel k, k < 67108864 →
      (∀ r, find_first_zero_bit_outer p max fuel ((32 * k : Nat) : Int) ≠ Run.ret r) ∧
      (67108864 - k + 1 ≤ fuel →
        find_first_zero_bit_outer p max fuel ((32 * k : Nat) : Int) = Run.fault) := by
  intro fuel
  induction fuel with
  | zero =>
    intro k _
    refine ⟨fun r h => ?_, fun h => by omega⟩
    simp [find_first_zero_bit_outer] at h
  | succ n ih =>
    intro k hk
    have hb : 32 * k < max := by omega
    have hw : p[32 * k / 32]? = some NOT_ZERO := by
      have : 32 * k / 32 = k := by omega
      rw [this]
      exact hall k hk
    rw [outer_nat_skip p max n (32 * k) hb hw]
    by_cases hk1 : k + 1 < 67108864
    · rw [wrap_int_add_32 (32 * k) (by omega)]
      have h32 : 32 * k + 32 = 32 * (k + 1) := by ring
      rw [h32]
      exact ⟨(ih (k + 1) hk1).1, fun hf => (ih (k + 1) hk1).2 (by omega)⟩
    · rw [wrap_int_at_int_max k (by omega)]
      exact ⟨(outer_negative p max n).1, fun hf => (outer_negative p max n).2 (by omega)⟩

theorem replicate_all_ones (k : Nat) (hk : k < 67108864) :
    (List.replicate 67108864 0xFFFFFFFF)[k]? = some NOT_ZERO := by
  rw [List.getElem?_replicate, if_pos hk]
  rfl

/-- Counterexample to C2 as stated: at `max = INT_MAX = 2147483647` with all
67108864 covered words all ones, `find_first_zero_bit` does not return `max`:
after the word at `b = 2147483616` the step `b += 32` wraps to `INT_MIN`,
`b < max` holds and `ptr[b >> 5]` is a read 67108864 words below the array. -/
theorem find_first_zero_bit_all_ones_int_max :
    (∀ i, i < (2147483647 + 31) / 32 →
      (List.replicate 67108864 0xFFFFFFFF)[i]? = some 0xFFFFFFFF) ∧
    find_first_zero_bit 67108865 (List.replicate 67108864 0xFFFFFFFF) 2147483647 =
      Run.fault ∧
    ∀ fuel, find_first_zero_bit fuel (List.replicate 67108864 0xFFFFFFFF) 2147483647 ≠
      Run.ret 2147483647 := by
  have h := outer_all_ones_wraps (List.replicate 67108864 0xFFFFFFFF) 2147483647
    replicate_all_ones (by decide)
  refine ⟨fun i hi => replicate_all_ones i hi, (h 67108865 0 (by decide)).2 (by decide),
    fun fuel => (h fuel 0 (by decide)).1 2147483647⟩

/-- C5: for a bit index `b` inside the array, `test_bit(b, p)` right after
`set_bit(b, p)` is nonzero and right after `clear_bit(b, p)` is zero, whatever
the array held; all three operations address bit `b & 31` of word `b >> 5`. -/
theorem test_bit_after_set_bit_clear_bit (p : List Nat) (b : Nat) (hb : b >>> 5 < p.length) :
    (∃ q r, set_bit b p = some q ∧ test_bit b q = some r ∧ r ≠ 0 ∧
        (q.getD (b >>> 5) 0).testBit (b &&& 31) = true) ∧
    (∃ q, clear_bit b p = some q ∧ test_bit b q = some 0 ∧
        (q.getD (b >>> 5) 0).testBit (b &&& 31) = false) ∧
    (∀ q r, test_bit b q = some r →
        (r ≠ 0 ↔ (q.getD (b >>> 5) 0).testBit (b &&& 31) = true)) := by
  have h31 : b &&& 31 = b % 32 := and_thirty_one b
  rw [shiftRight_five] at hb ⊢
  rw [h31]
  have hk : b % 32 < 32 := Nat.mod_lt _ (by decide)
  have hw := getElem?_of_lt p (b / 32) hb
  refine ⟨?_, ?_, ?_⟩
  · refine ⟨_, toInt32 (2 ^ (b % 32)), set_bit_eq b p _ hw, ?_,
      toInt32_two_pow_ne_zero _ hk, ?_⟩
    · rw [test_bit_eq b _ _ (List.getElem?_set_self hb), testBit_set_mask]
      simp
    · rw [List.getD_eq_getElem?_getD, List.getElem?_set_self hb]
      show (atomic_set_int _ _).testBit _ = true
      rw [testBit_set_mask]
      simp
  · refine ⟨_, clear_bit_eq b p _ hw, ?_, ?_⟩
    · rw [test_bit_eq b _ _ (List.getElem?_set_self hb), testBit_clear_mask _ _ _ hk]
      simp
    · rw [List.getD_eq_getElem?_getD, List.getElem?_set_self hb]
      show (atomic_clear_int _ _).testBit _ = false
      rw [testBit_clear_mask _ _ _ hk]
      simp
  · intro q r hr
    cases hq : q[b / 32]? with
    | none => rw [test_bit_none b q hq] at hr; cases hr
    | some w =>
      rw [test_bit_eq b q w hq] at hr
      rw [List.getD_eq_getElem?_getD, hq]
      show r ≠ 0 ↔ w.testBit (b % 32) = true
      cases hbit : w.testBit (b % 32)
      · rw [hbit] at hr
        simp only [Bool.false_eq_true, if_false, Option.some.injEq] at hr
        simp [← hr]
      · rw [hbit] at hr
        simp only [if_true, Option.some.injEq] at hr
        have := toInt32_two_pow_ne_zero _ hk
        simp [← hr, this]

theorem test_bit_after_set_bit_clear_bit_witness :
    37 >>> 5 < [5, 0x20].length ∧
    (∃ q r, set_bit 37 [5, 0x20] = some q ∧ test_bit 37 q = some r ∧ r ≠ 0 ∧
        (q.getD (37 >>> 5) 0).testBit (37 &&& 31) = true) ∧
    (∃ q, clear_bit 37 [5, 0x20] = some q ∧ test_bit 37 q = some 0 ∧
        (q.getD (37 >>> 5) 0).testBit (37 &&& 31) = false) ∧
    (∀ q r, test_bit 37 q = some r →
        (r ≠ 0 ↔ (q.getD (37 >>> 5) 0).testBit (37 &&& 31) = true)) :=
  ⟨by decide, test_bit_after_set_bit_clear_bit [5, 0x20] 37 (by decide)⟩

/-- C6: `set_bit(b, p)` and `clear_bit(b, p)` change a single bit: every bit
`c ≠ b` keeps its value (so `test_bit(c, p)` gives the same result), and
every word other than word `b >> 5` is unchanged. -/
theorem set_bit_clear_bit_frame (p : List Nat) (b c : Nat) (hb : b >>> 5 < p.length)
    (hne : c ≠ b) :
    (∃ q, set_bit b p = some q ∧ bit_is_set q c = bit_is_set p c ∧
        test_bit c q = test_bit c p ∧ q.length = p.length ∧
        ∀ j, j ≠ b >>> 5 → q[j]? = p[j]?) ∧
    (∃ q, clear_bit b p = some q ∧ bit_is_set q c = bit_is_set p c ∧
        test_bit c q = test_bit c p ∧ q.length = p.length ∧
        ∀ j, j ≠ b >>> 5 → q[j]? = p[j]?) := by
  rw [shiftRight_five] at hb ⊢
  have hkc : c % 32 < 32 := Nat.mod_lt _ (by decide)
  have hw := getElem?_of_lt p (b / 32) hb
  have key : ∀ w' : Nat, w'.testBit (c % 32) = ((p.getD (b / 32) 0).testBit (c % 32)) ∨
      c / 32 ≠ b / 32 →
      bit_is_set (p.set (b / 32) w') c = bit_is_set p c ∧
      test_bit c (p.set (b / 32) w') = test_bit c p := by
    intro w' hw'
    by_cases hcw : c / 32 = b / 32
    · have hbitw : w'.testBit (c % 32) = (p.getD (b / 32) 0).testBit (c % 32) := by
        rcases hw' with h | h
        · exact h
        · exact absurd hcw h
      have h1 : (p.set (b / 32) w')[c / 32]? = some w' := by
        rw [hcw]; exact List.getElem?_set_self hb
      have h2 : p[c / 32]? = some (p.getD (b / 32) 0) := by rw [hcw]; exact hw
      rw [bit_is_set_eq _ _ _ h1, bit_is_set_eq _ _ _ h2, test_bit_eq _ _ _ h1,
        test_bit_eq _ _ _ h2, hbitw]
      exact ⟨rfl, rfl⟩
    · have h1 : (p.set (b / 32) w')[c / 32]? = p[c / 32]? :=
        List.getElem?_set_ne (fun h => hcw h.symm)
      constructor
      · unfold bit_is_set
        rw [List.getD_eq_getElem?_getD, List.getD_eq_getElem?_getD, h1]
      · unfold test_bit
        rw [shiftRight_five, h1]
  have hmod : c / 32 = b / 32 → b % 32 ≠ c % 32 := by
    intro h1 h2
    apply hne
    have e1 := Nat.div_add_mod c 32
    have e2 := Nat.div_add_mod b 32
    omega
  refine ⟨⟨_, set_bit_eq b p _ hw, ?_, ?_, List.length_set _ _ _, ?_⟩,
    ⟨_, clear_bit_eq b p _ hw, ?_, ?_, List.length_set _ _ _, ?_⟩⟩
  · refine (key _ ?_).1
    by_cases hcw : c / 32 = b / 32
    · left; rw [testBit_set_mask]; simp [hmod hcw]
    · right; exact hcw
  · refine (key _ ?_).2
    by_cases hcw : c / 32 = b / 32
    · left; rw [testBit_set_mask]; simp [hmod hcw]
    · right; exact hcw
  · intro j hj
    exact List.getElem?_set_ne (fun h => hj h.symm)
  · refine (key _ ?_).1
    by_cases hcw : c / 32 = b / 32
    · left; rw [testBit_clear_mask _ _ _ hkc]; simp [hmod hcw]
    · right; exact hcw
  · refine (key _ ?_).2
    by_cases hcw : c / 32 = b / 32
    · left; rw [testBit_clear_mask _ _ _ hkc]; simp [hmod hcw]
    · right; exact hcw
  · intro j hj
    exact List.getElem?_set_ne (fun h => hj h.symm)

theorem set_bit_clear_bit_frame_witness :
    37 >>> 5 < [5, 0x60].length ∧ (38 : Nat) ≠ 37 ∧
    (∃ q, set_bit 37 [5, 0x60] = some q ∧ bit_is_set q 38 = bit_is_set [5, 0x60] 38 ∧
        test_bit 38 q = test_bit 38 [5, 0x60] ∧ q.length = [5, 0x60].length ∧
        ∀ j, j ≠ 37 >>> 5 → q[j]? = [5, 0x60][j]?) ∧
    (∃ q, clear_bit 37 [5, 0x60] = some q ∧ bit_is_set q 38 = bit_is_set [5, 0x60] 38 ∧
        test_bit 38 q = test_bit 38 [5, 0x60] ∧ q.length = [5, 0x60].length ∧
        ∀ j, j ≠ 37 >>> 5 → q[j]? = [5, 0x60][j]?) :=
  ⟨by decide, by decide, set_bit_clear_bit_frame [5, 0x60] 37 38 (by decide) (by decide)⟩

theorem toInt32_two_pow (k : Nat) (hk : k < 31) : toInt32 (2 ^ k) = 2 ^ k := by
  have h1 : 2 ^ k < 2 ^ 31 := Nat.pow_lt_pow_right (by decide) hk
  have h2 : 2 ^ k % 2 ^ 32 = 2 ^ k := Nat.mod_eq_of_lt (by omega)
  unfold toInt32
  rw [h2, if_pos h1]
  push_cast
  rfl

theorem toInt32_int_min : toInt32 (2 ^ 31) = -2 ^ 31 := by decide

/-- C7: `test_bit(b, p)` only reads: its result is a function of the array,
namely `word[b >> 5] & (1 << (b & 31))` read as an `int`.  The result is
nonzero exactly when bit `b` is set, and it is `0` or the single-bit mask:
`2 ^ (b mod 32)` below bit 31 and `INT_MIN` (not `1`) at bit 31. -/
theorem test_bit_read_and_mask (p : List Nat) (b : Nat) (hb : b >>> 5 < p.length) :
    ∃ w r, p[b >>> 5]? = some w ∧ test_bit b p = some r ∧
      r = toInt32 (w &&& shl_int 1 (b &&& 31)) ∧
      (r ≠ 0 ↔ bit_is_set p b = true) ∧
      (r = 0 ∨ r = toInt32 (shl_int 1 (b &&& 31))) ∧
      (b % 32 < 31 → bit_is_set p b = true → r = 2 ^ (b % 32)) ∧
      (b % 32 = 31 → bit_is_set p b = true → r = -2 ^ 31 ∧ r ≠ 1) := by
  have hk : b % 32 < 32 := Nat.mod_lt _ (by decide)
  have hb2 : b / 32 < p.length := by rw [← shiftRight_five]; exact hb
  have hw := getElem?_of_lt p (b / 32) hb2
  have hmask : shl_int 1 (b &&& 31) = 2 ^ (b % 32) := mask_eq b
  refine ⟨p.getD (b / 32) 0, toInt32 (p.getD (b / 32) 0 &&& shl_int 1 (b &&& 31)), ?_, ?_,
    rfl, ?_⟩
  · rw [shiftRight_five]; exact hw
  · unfold test_bit
    rw [shiftRight_five, hw]
  · rw [bit_is_set_eq p b _ hw, hmask, and_two_pow]
    cases hbit : (p.getD (b / 32) 0).testBit (b % 32)
    · simp [toInt32_zero]
    · rw [if_pos rfl]
      refine ⟨⟨fun _ => rfl, fun _ => toInt32_two_pow_ne_zero _ hk⟩, Or.inr rfl,
        fun h _ => toInt32_two_pow _ h, fun h _ => ?_⟩
      rw [h, toInt32_int_min]
      exact ⟨rfl, by decide⟩

theorem test_bit_read_and_mask_witness :
    63 >>> 5 < [0, 0x80000001].length ∧
    ∃ w r, [0, 0x80000001][63 >>> 5]? = some w ∧ test_bit 63 [0, 0x80000001] = some r ∧
      r = toInt32 (w &&& shl_int 1 (63 &&& 31)) ∧
      (r ≠ 0 ↔ bit_is_set [0, 0x80000001] 63 = true) ∧
      (r = 0 ∨ r = toInt32 (shl_int 1 (63 &&& 31))) ∧
      (63 % 32 < 31 → bit_is_set [0, 0x80000001] 63 = true → r = 2 ^ (63 % 32)) ∧
      (63 % 32 = 31 → bit_is_set [0, 0x80000001] 63 = true → r = -2 ^ 31 ∧ r ≠ 1) :=
  ⟨by decide, test_bit_read_and_mask [0, 0x80000001] 63 (by decide)⟩

/-! ### test_and_set_bit -/

theorem test_and_set_bit_loop_first (bit fuel w : Nat) :
    test_and_set_bit_loop bit (fuel + 1) w =
      some (if w &&& bit ≠ 0 then 1 else 0, w ||| bit) := by
  simp [test_and_set_bit_loop, atomic_cmpset_long, atomic_cmpset]

theorem test_and_set_bit_low (LONG_BIT fuel b w : Nat)
    (hb : b < 31 ∨ (b = 31 ∧ LONG_BIT = 32)) :
    test_and_set_bit LONG_BIT (fuel + 1) b w =
      some (if w.testBit b then 1 else 0, w ||| 2 ^ b) := by
  have hb32 : b < 32 := by omega
  have hbit : int_to_long LONG_BIT (shl_int 1 b) = 2 ^ b := by
    rw [shl_int_one b hb32]
    unfold int_to_long
    rw [Nat.mod_eq_of_lt (two_pow_lt b hb32)]
    rcases hb with h | ⟨h1, h2⟩
    · rw [if_pos (Nat.pow_lt_pow_right (by decide) h)]
    · subst h1; subst h2; decide
  unfold test_and_set_bit
  rw [if_pos hb32, hbit, test_and_set_bit_loop_first, and_two_pow]
  have hpos : 0 < 2 ^ b := Nat.pos_pow_of_pos b (by decide)
  cases h : w.testBit b
  · simp
  · simp only [if_true]
    rw [if_pos (by omega)]

/-- C3: with a 64-bit `long`, `b = 31` and the prior word `2 ^ 32` (bit 31
clear, bit 32 set) `test_and_set_bit` returns 1, for every budget that lets
the loop run once; on the prior word `0` it returns 0, so the result depends
on bit 32.  The mask `1 << 31` is computed in `int` and sign-extended to
`0xFFFFFFFF80000000`.  For `b >= 32` the shift has no defined result. -/
theorem test_and_set_bit_lp64_bit31_result :
    Nat.testBit (2 ^ 32) 31 = false ∧ Nat.testBit 0 31 = false ∧
    (∀ fuel, (test_and_set_bit 64 (fuel + 1) 31 (2 ^ 32)).map Prod.fst = some 1) ∧
    (∀ fuel, (test_and_set_bit 64 (fuel + 1) 31 0).map Prod.fst = some 0) ∧
    (∀ fuel w, test_and_set_bit 64 fuel 32 w = none) := by
  refine ⟨by decide, by decide, fun fuel => ?_, fun fuel => ?_, fun fuel w => ?_⟩
  · unfold test_and_set_bit
    rw [if_pos (by decide), test_and_set_bit_loop_first]
    decide
  · unfold test_and_set_bit
    rw [if_pos (by decide), test_and_set_bit_loop_first]
    decide
  · unfold test_and_set_bit
    rw [if_neg (by decide)]

/-- C4: with a 64-bit `long`, `b = 31` and the prior word `0`,
`test_and_set_bit` leaves `0xFFFFFFFF80000000` in the word: bits 32 to 63 are
set as well, so the new word is not the old word with only bit 31 OR-ed in. -/
theorem test_and_set_bit_lp64_bit31_word :
    (∀ fuel, (test_and_set_bit 64 (fuel + 1) 31 0).map Prod.snd = some 0xFFFFFFFF80000000) ∧
    (0xFFFFFFFF80000000 : Nat) ≠ 0 ||| 2 ^ 31 ∧
    Nat.testBit 0xFFFFFFFF80000000 32 = true ∧ Nat.testBit 0 32 = false := by
  refine ⟨fun fuel => ?_, by decide, by decide, by decide⟩
  unfold test_and_set_bit
  rw [if_pos (by decide), test_and_set_bit_loop_first]
  decide

/-! ### atomic_xchg -/

theorem atomic_xchg_first (fuel w new : Nat) : atomic_xchg (fuel + 1) w new = some (w, new) := by
  simp [atomic_xchg, atomic_cmpset_int, atomic_cmpset]

theorem atomic64_xchg_first (fuel w new : Nat) :
    atomic64_xchg (fuel + 1) w new = some (w, new) := by
  simp [atomic64_xchg, atomic_cmpset_64, atomic_cmpset]

theorem xchg_calls_of_first (xchg : Nat → Nat → Nat → Option (Nat × Nat)) (fuel : Nat)
    (hx : ∀ w new, xchg fuel w new = some (w, new)) :
    ∀ (vs : List Nat) (hn : vs ≠ []) (v0 : Nat),
      xchg_calls xchg fuel v0 vs = some ((v0 :: vs).dropLast, vs.getLast hn) := by
  intro vs
  induction vs with
  | nil => intro hn; exact absurd rfl hn
  | cons v vs ih =>
    intro _ v0
    cases vs with
    | nil => simp [xchg_calls, hx]
    | cons u us =>
      have h := ih (List.cons_ne_nil u us) v
      rw [xchg_calls, hx]
      simp only [h]
      simp

/-- C8: the calls `atomic_xchg(p, v1)`, ..., `atomic_xchg(p, vn)` (`n >= 1`)
made in that order on a word holding `v0`, with no other writer, return
`v0, v1, ..., v(n-1)` in that order, each previously stored value once, and
leave `vn` stored.  A budget of one loop iteration per call is enough, so each
compare-and-swap succeeds at its first attempt.  The same for
`atomic64_xchg`. -/
theorem atomic_xchg_sequence (v0 : Nat) (vs : List Nat) (hn : vs ≠ []) (fuel : Nat)
    (hf : 1 ≤ fuel) :
    xchg_calls atomic_xchg fuel v0 vs = some ((v0 :: vs).dropLast, vs.getLast hn) ∧
    xchg_calls atomic64_xchg fuel v0 vs = some ((v0 :: vs).dropLast, vs.getLast hn) ∧
    xchg_calls atomic_xchg 1 v0 vs = some ((v0 :: vs).dropLast, vs.getLast hn) ∧
    xchg_calls atomic64_xchg 1 v0 vs = some ((v0 :: vs).dropLast, vs.getLast hn) := by
  obtain ⟨n, rfl⟩ : ∃ n, fuel = n + 1 := ⟨fuel - 1, by omega⟩
  exact ⟨xchg_calls_of_first _ _ (atomic_xchg_first n) vs hn v0,
    xchg_calls_of_first _ _ (atomic64_xchg_first n) vs hn v0,
    xchg_calls_of_first _ _ (atomic_xchg_first 0) vs hn v0,
    xchg_calls_of_first _ _ (atomic64_xchg_first 0) vs hn v0⟩

theorem atomic_xchg_sequence_witness :
    xchg_calls atomic_xchg 3 7 [1, 2, 7] = some ([7, 1, 2], 7) ∧
    xchg_calls atomic64_xchg 3 7 [1, 2, 7] = some ([7, 1, 2], 7) ∧
    xchg_calls atomic_xchg 1 7 [1, 2, 7] = some ([7, 1, 2], 7) ∧
    xchg_calls atomic64_xchg 1 7 [1, 2, 7] = some ([7, 1, 2], 7) :=
  atomic_xchg_sequence 7 [1, 2, 7] (by decide) 3 (by decide)

/-! ### atomic_add_return, atomic_sub_return -/

theorem toU32_toInt32 (x : Nat) : toU32 (toInt32 x) = x % 2 ^ 32 := by
  unfold toU32 toInt32
  split <;> omega

theorem toU32_lt (i : Int) : toU32 i < 2 ^ 32 := by
  unfold toU32
  omega

theorem atomic_add_return_eq (i : Int) (v : Nat) :
    atomic_add_return i v = (toInt32 (toU32 ((v : Int) + i)), toU32 ((v : Int) + i)) := by
  have h1 : (toU32 i + v) % 2 ^ 32 = toU32 ((v : Int) + i) := by
    unfold toU32; omega
  have h2 : (v + toU32 i) % 2 ^ 32 = toU32 ((v : Int) + i) := by
    unfold toU32; omega
  simp only [atomic_add_return, atomic_fetchadd_int, h1, h2]

theorem atomic_sub_return_eq (i : Int) (v : Nat) :
    atomic_sub_return i v = (toInt32 (toU32 ((v : Int) - i)), toU32 ((v : Int) - i)) := by
  have h0 : toU32 (toInt32 (toU32 (-i))) = toU32 (-i) := by
    rw [toU32_toInt32]
    exact Nat.mod_eq_of_lt (toU32_lt _)
  have h1 : (v + (2 ^ 32 - toU32 i)) % 2 ^ 32 = toU32 ((v : Int) - i) := by
    unfold toU32; omega
  have h2 : (v + toU32 (-i)) % 2 ^ 32 = toU32 ((v : Int) - i) := by
    unfold toU32; omega
  simp only [atomic_sub_return, atomic_fetchadd_int, h0, h1, h2]

/-- C9: `atomic_add_return(i, p)` on a word holding `v` stores
`(v + i) mod 2^32` and returns the `int` with that same 32-bit pattern, which
is what `atomic_read(p)` yields right afterwards, wrap-around included;
`atomic_inc_return(p)` is the case `i = 1`. -/
theorem atomic_add_return_new_value (v : Nat) (i : Int) :
    (atomic_add_return i v).2 = (((v : Int) + i) % 2 ^ 32).toNat ∧
    (atomic_add_return i v).1 = toInt32 (atomic_add_return i v).2 ∧
    toU32 (atomic_add_return i v).1 = atomic_read (atomic_add_return i v).2 ∧
    atomic_inc_return v = atomic_add_return 1 v ∧
    (atomic_inc_return v).2 = (v + 1) % 2 ^ 32 := by
  have hlt := toU32_lt ((v : Int) + i)
  refine ⟨?_, ?_, ?_, rfl, ?_⟩
  · rw [atomic_add_return_eq]; rfl
  · rw [atomic_add_return_eq]
  · rw [atomic_add_return_eq]
    show toU32 (toInt32 _) = _
    rw [toU32_toInt32]
    exact Nat.mod_eq_of_lt hlt
  · unfold atomic_inc_return
    rw [atomic_add_return_eq]
    show toU32 ((v : Int) + 1) = (v + 1) % 2 ^ 32
    unfold toU32
    omega

/-- C10: `atomic_sub_return(i, p)` on a word holding `v` stores
`(v - i) mod 2^32` and returns the `int` with that same 32-bit pattern, which
is what `atomic_read(p)` yields right afterwards, also for `i = INT_MIN`
where `-i` wraps; `atomic_dec_return(p)` is the case `i = 1`. -/
theorem atomic_sub_return_new_value (v : Nat) (i : Int) :
    (atomic_sub_return i v).2 = (((v : Int) - i) % 2 ^ 32).toNat ∧
    (atomic_sub_return i v).1 = toInt32 (atomic_sub_return i v).2 ∧
    toU32 (atomic_sub_return i v).1 = atomic_read (atomic_sub_return i v).2 ∧
    atomic_dec_return v = atomic_sub_return 1 v ∧
    (atomic_dec_return v).2 = (((v : Int) - 1) % 2 ^ 32).toNat ∧
    atomic_sub_return (-2 ^ 31) 5 = (-2 ^ 31 + 5, 2 ^ 31 + 5) := by
  have hlt := toU32_lt ((v : Int) - i)
  refine ⟨?_, ?_, ?_, rfl, ?_, by decide⟩
  · rw [atomic_sub_return_eq]; rfl
  · rw [atomic_sub_return_eq]
  · rw [atomic_sub_return_eq]
    show toU32 (toInt32 _) = _
    rw [toU32_toInt32]
    exact Nat.mod_eq_of_lt hlt
  · unfold atomic_dec_return
    rw [atomic_sub_return_eq]
    rfl

/-! ### atomic_inc, atomic_dec -/

theorem run_inc_dec_eq (ops : List IncDec) :
    ∀ v, v < 2 ^ 32 →
      run_inc_dec v ops =
        toU32 ((v : Int) + (ops.count IncDec.inc : Nat) - (ops.count IncDec.dec : Nat)) := by
  induction ops with
  | nil =>
    intro v hv
    simp only [run_inc_dec, List.foldl_nil, List.count_nil, toU32]
    omega
  | cons op ops ih =>
    intro v hv
    have hstep : run_inc_dec v (op :: ops) = run_inc_dec (op.apply v) ops := rfl
    rw [hstep]
    cases op with
    | inc =>
      have hlt : IncDec.inc.apply v < 2 ^ 32 := by
        simp only [IncDec.apply, atomic_inc, atomic_add_int]; omega
      rw [ih _ hlt]
      have hc1 : (IncDec.inc :: ops).count IncDec.inc = ops.count IncDec.inc + 1 := by simp
      have hc2 : (IncDec.inc :: ops).count IncDec.dec = ops.count IncDec.dec := by simp
      rw [hc1, hc2]
      simp only [IncDec.apply, atomic_inc, atomic_add_int, toU32]
      omega
    | dec =>
      have hlt : IncDec.dec.apply v < 2 ^ 32 := by
        simp only [IncDec.apply, atomic_dec, atomic_subtract_int]; omega
      rw [ih _ hlt]
      have hc1 : (IncDec.dec :: ops).count IncDec.inc = ops.count IncDec.inc := by simp
      have hc2 : (IncDec.dec :: ops).count IncDec.dec = ops.count IncDec.dec + 1 := by simp
      rw [hc1, hc2]
      simp only [IncDec.apply, atomic_dec, atomic_subtract_int, toU32]
      omega

/-- C11: after any finite sequence of `atomic_inc` and `atomic_dec` on a word
holding `v0`, each taking effect as one indivisible step, the word holds `v0`
plus the number of increments minus the number of decrements, modulo `2^32`;
so every reordering of the operations ends in the same value. -/
theorem atomic_inc_dec_net_sum (v0 : Nat) (hv : v0 < 2 ^ 32) (ops ops' : List IncDec)
    (hperm : List.Perm ops ops') :
    run_inc_dec v0 ops =
      (((v0 : Int) + (ops.count IncDec.inc : Nat) - (ops.count IncDec.dec : Nat))
        % 2 ^ 32).toNat ∧
    run_inc_dec v0 ops' = run_inc_dec v0 ops := by
  refine ⟨run_inc_dec_eq ops v0 hv, ?_⟩
  rw [run_inc_dec_eq ops v0 hv, run_inc_dec_eq ops' v0 hv, hperm.count_eq, hperm.count_eq]

theorem atomic_inc_dec_net_sum_witness :
    run_inc_dec 0 [IncDec.dec, IncDec.inc, IncDec.dec] =
      ((((0 : Nat) : Int) + ([IncDec.dec, IncDec.inc, IncDec.dec].count IncDec.inc : Nat)
        - ([IncDec.dec, IncDec.inc, IncDec.dec].count IncDec.dec : Nat)) % 2 ^ 32).toNat ∧
    run_inc_dec 0 [IncDec.dec, IncDec.dec, IncDec.inc] =
      run_inc_dec 0 [IncDec.dec, IncDec.inc, IncDec.dec] :=
  atomic_inc_dec_net_sum 0 (by decide) [IncDec.dec, IncDec.inc, IncDec.dec]
    [IncDec.dec, IncDec.dec, IncDec.inc] (by decide)

/-! ### BITS_TO_LONGS -/

theorem two_mul_lt_two_pow (W : Nat) (hW : 8 ≤ W) : 2 * W < 2 ^ W := by
  induction W, hW using Nat.le_induction with
  | base => decide
  | succ n _ ih =>
    rw [Nat.pow_succ]
    omega

theorem howmany_eq (width x y : Nat) (hno : x + (y - 1) < 2 ^ width) :
    howmany width x y = (x + (y - 1)) / y := by
  unfold howmany
  rw [Nat.mod_eq_of_lt hno]

theorem ceil_div_spec (x W : Nat) (hW : 0 < W) :
    x ≤ (x + (W - 1)) / W * W ∧ ∀ n, x ≤ n * W → (x + (W - 1)) / W ≤ n := by
  constructor
  · have h1 := Nat.div_add_mod (x + (W - 1)) W
    have h2 := Nat.mod_lt (x + (W - 1)) hW
    rw [Nat.mul_comm] at h1
    omega
  · intro n hn
    apply Nat.le_of_lt_succ
    rw [Nat.div_lt_iff_lt_mul hW, Nat.succ_mul]
    omega

theorem BITS_TO_LONGS_eq (sizeof_long x : Nat)
    (hno : x + (NBBY * sizeof_long - 1) < 2 ^ (NBBY * sizeof_long)) :
    BITS_TO_LONGS sizeof_long x = (x + (NBBY * sizeof_long - 1)) / (NBBY * sizeof_long) :=
  howmany_eq _ _ _ hno

/-- C12: when `x + W - 1` does not overflow, where `W = NBBY * sizeof(long)`,
`BITS_TO_LONGS(x)` is `ceil(x / W)`, the least `n` with `n * W >= x`; and
`BITS_TO_LONGS` of `0`, `1`, `W`, `W + 1` is `0`, `1`, `1`, `2`. -/
theorem BITS_TO_LONGS_ceil (sizeof_long x : Nat) (hs : 1 ≤ sizeof_long)
    (hno : x + (NBBY * sizeof_long - 1) < 2 ^ (NBBY * sizeof_long)) :
    BITS_TO_LONGS sizeof_long x = (x + (NBBY * sizeof_long - 1)) / (NBBY * sizeof_long) ∧
    x ≤ BITS_TO_LONGS sizeof_long x * (NBBY * sizeof_long) ∧
    (∀ n, x ≤ n * (NBBY * sizeof_long) → BITS_TO_LONGS sizeof_long x ≤ n) ∧
    BITS_TO_LONGS sizeof_long 0 = 0 ∧
    BITS_TO_LONGS sizeof_long 1 = 1 ∧
    BITS_TO_LONGS sizeof_long (NBBY * sizeof_long) = 1 ∧
    BITS_TO_LONGS sizeof_long (NBBY * sizeof_long + 1) = 2 := by
  have hN : NBBY = 8 := rfl
  have hW8 : 8 ≤ NBBY * sizeof_long := by rw [hN]; omega
  have hW : 0 < NBBY * sizeof_long := by omega
  have h2W := two_mul_lt_two_pow _ hW8
  have hspec := ceil_div_spec x _ hW
  rw [BITS_TO_LONGS_eq sizeof_long x hno, BITS_TO_LONGS_eq sizeof_long 0 (by omega),
    BITS_TO_LONGS_eq sizeof_long 1 (by omega),
    BITS_TO_LONGS_eq sizeof_long (NBBY * sizeof_long) (by omega),
    BITS_TO_LONGS_eq sizeof_long (NBBY * sizeof_long + 1) (by omega)]
  refine ⟨rfl, hspec.1, hspec.2, ?_, ?_, ?_, ?_⟩
  · rw [Nat.div_eq_of_lt (by omega)]
  · have h : 1 + (NBBY * sizeof_long - 1) = NBBY * sizeof_long := by omega
    rw [h, Nat.div_self hW]
  · apply Nat.div_eq_of_lt_le
    · rw [Nat.one_mul]; omega
    · omega
  · apply Nat.div_eq_of_lt_le
    · omega
    · omega

theorem BITS_TO_LONGS_ceil_witness :
    BITS_TO_LONGS 8 100 = (100 + (NBBY * 8 - 1)) / (NBBY * 8) ∧
    100 ≤ BITS_TO_LONGS 8 100 * (NBBY * 8) ∧
    (∀ n, 100 ≤ n * (NBBY * 8) → BITS_TO_LONGS 8 100 ≤ n) ∧
    BITS_TO_LONGS 8 0 = 0 ∧
    BITS_TO_LONGS 8 1 = 1 ∧
    BITS_TO_LONGS 8 (NBBY * 8) = 1 ∧
    BITS_TO_LONGS 8 (NBBY * 8 + 1) = 2 :=
  BITS_TO_LONGS_ceil 8 100 (by decide) (by decide)

/-! ### atomic_sub_and_test, atomic_dec_and_test, atomic_inc_and_test -/

theorem atomic_sub_and_test_eq (i : Int) (v : Nat) :
    atomic_sub_and_test i v =
      (decide (toU32 ((v : Int) - i) = 0), toU32 ((v : Int) - i)) := by
  have h : atomic_sub_and_test i v =
      (decide ((atomic_sub_return i v).1 = 0), (atomic_sub_return i v).2) := rfl
  rw [h, atomic_sub_return_eq]
  simp only [toInt32_eq_zero _ (toU32_lt _)]

theorem atomic_inc_and_test_eq (v : Nat) :
    atomic_inc_and_test v =
      (decide (toU32 ((v : Int) + 1) = 0), toU32 ((v : Int) + 1)) := by
  have h : atomic_inc_and_test v =
      (decide ((atomic_add_return 1 v).1 = 0), (atomic_add_return 1 v).2) := rfl
  rw [h, atomic_add_return_eq]
  simp only [toInt32_eq_zero _ (toU32_lt _)]

/-- C18: `atomic_sub_and_test(i, v)`, `atomic_dec_and_test(v)` and
`atomic_inc_and_test(v)` perform the update of `atomic_sub_return`,
`atomic_dec_return`, `atomic_inc_return` and are true exactly when the word
stored afterwards is zero: for `atomic_dec_and_test` when the prior value was
`1`, for `atomic_inc_and_test` when it was `0xFFFFFFFF`, and for
`atomic_sub_and_test(i, v)` when it was congruent to `i` modulo `2^32`. -/
theorem atomic_and_test_zero (v : Nat) (hv : v < 2 ^ 32) (i : Int) :
    ((atomic_sub_and_test i v).2 = (atomic_sub_return i v).2 ∧
      ((atomic_sub_and_test i v).1 = true ↔ (atomic_sub_and_test i v).2 = 0) ∧
      ((atomic_sub_and_test i v).1 = true ↔ (v : Int) % 2 ^ 32 = i % 2 ^ 32)) ∧
    ((atomic_dec_and_test v).2 = (atomic_dec_return v).2 ∧
      ((atomic_dec_and_test v).1 = true ↔ (atomic_dec_and_test v).2 = 0) ∧
      ((atomic_dec_and_test v).1 = true ↔ v = 1)) ∧
    ((atomic_inc_and_test v).2 = (atomic_inc_return v).2 ∧
      ((atomic_inc_and_test v).1 = true ↔ (atomic_inc_and_test v).2 = 0) ∧
      ((atomic_inc_and_test v).1 = true ↔ v = 0xFFFFFFFF)) := by
  have hdec : atomic_dec_and_test v = atomic_sub_and_test 1 v := rfl
  refine ⟨⟨rfl, ?_, ?_⟩, ⟨rfl, ?_, ?_⟩, ⟨rfl, ?_, ?_⟩⟩
  · rw [atomic_sub_and_test_eq]; simp
  · rw [atomic_sub_and_test_eq]
    simp only [decide_eq_true_eq, toU32]
    omega
  · rw [hdec, atomic_sub_and_test_eq]; simp
  · rw [hdec, atomic_sub_and_test_eq]
    simp only [decide_eq_true_eq, toU32]
    omega
  · rw [atomic_inc_and_test_eq]; simp
  · rw [atomic_inc_and_test_eq]
    simp only [decide_eq_true_eq, toU32]
    omega

theorem atomic_and_test_zero_witness :
    ((atomic_sub_and_test (-1) 0xFFFFFFFF).1 = true ↔
      ((0xFFFFFFFF : Nat) : Int) % 2 ^ 32 = (-1) % 2 ^ 32) ∧
    ((atomic_dec_and_test 0xFFFFFFFF).1 = true ↔ 0xFFFFFFFF = 1) ∧
    ((atomic_inc_and_test 0xFFFFFFFF).1 = true ↔ 0xFFFFFFFF = 0xFFFFFFFF) :=
  ⟨(atomic_and_test_zero 0xFFFFFFFF (by decide) (-1)).1.2.2,
    (atomic_and_test_zero 0xFFFFFFFF (by decide) (-1)).2.1.2.2,
    (atomic_and_test_zero 0xFFFFFFFF (by decide) (-1)).2.2.2.2⟩

/-! ### The reads of find_first_zero_bit -/

theorem inner_traced_snd (p : List Nat) :
    ∀ fuel (b : Int),
      (find_first_zero_bit_inner_traced p fuel b).2 = find_first_zero_bit_inner p fuel b := by
  intro fuel
  induction fuel with
  | zero => intro b; rfl
  | succ n ih =>
    intro b
    unfold find_first_zero_bit_inner_traced find_first_zero_bit_inner
    cases hw : word_at p (Int.shiftRight b 5) with
    | none => rfl
    | some w =>
      simp only
      by_cases hz : w &&& shl_int 1 (Int.land b 0x1f).toNat = 0
      · rw [if_pos hz, if_pos hz]
      · rw [if_neg hz, if_neg hz]
        exact ih _

theorem outer_traced_snd (p : List Nat) (max : Nat) :
    ∀ fuel (b : Int), (find_first_zero_bit_outer_traced p max fuel b).2 =
      find_first_zero_bit_outer p max fuel b := by
  intro fuel
  induction fuel with
  | zero => intro b; rfl
  | succ n ih =>
    intro b
    unfold find_first_zero_bit_outer_traced find_first_zero_bit_outer
    by_cases hb : b < (max : Int)
    · rw [if_pos hb, if_pos hb]
      cases hw : word_at p (Int.shiftRight b 5) with
      | none => rfl
      | some w =>
        simp only
        by_cases hz : w ≠ NOT_ZERO
        · rw [if_pos hz, if_pos hz]
          exact inner_traced_snd p n b
        · rw [if_neg hz, if_neg hz]
          exact ih _
    · rw [if_neg hb, if_neg hb]

theorem find_first_zero_bit_traced_snd (fuel : Nat) (p : List Nat) (max : Nat) :
    (find_first_zero_bit_traced fuel p max).2 = find_first_zero_bit fuel p max :=
  outer_traced_snd p max fuel 0

theorem inner_traced_nat_hit (p : List Nat) (fuel n w : Nat) (hw : p[n / 32]? = some w)
    (hbit : w.testBit (n % 32) = false) :
    find_first_zero_bit_inner_traced p (fuel + 1) (n : Int) =
      ([Read.inner ((n / 32 : Nat) : Int)], Run.ret n) := by
  unfold find_first_zero_bit_inner_traced
  rw [word_at_nat, hw]
  simp only
  rw [mask_int_eq, and_two_pow, hbit, shiftRight_five_int]
  simp

theorem inner_traced_nat_miss (p : List Nat) (fuel n w : Nat) (hw : p[n / 32]? = some w)
    (hbit : w.testBit (n % 32) = true) :
    find_first_zero_bit_inner_traced p (fuel + 1) (n : Int) =
      (Read.inner ((n / 32 : Nat) : Int) ::
          (find_first_zero_bit_inner_traced p fuel (wrap_int ((n : Int) + 1))).1,
        (find_first_zero_bit_inner_traced p fuel (wrap_int ((n : Int) + 1))).2) := by
  have hpos : 0 < 2 ^ (n % 32) := Nat.pos_pow_of_pos _ (by decide)
  rw [find_first_zero_bit_inner_traced, word_at_nat, hw]
  simp only
  rw [mask_int_eq, and_two_pow, hbit, if_pos rfl, if_neg (by omega), shiftRight_five_int]

theorem outer_traced_nat_done (p : List Nat) (max fuel n : Nat) (hn : ¬ n < max) :
    find_first_zero_bit_outer_traced p max (fuel + 1) (n : Int) = ([], Run.ret max) := by
  unfold find_first_zero_bit_outer_traced
  rw [if_neg (by omega)]

theorem outer_traced_nat_enter (p : List Nat) (max fuel n w : Nat) (hn : n < max)
    (hw : p[n / 32]? = some w) (hne : w ≠ NOT_ZERO) :
    find_first_zero_bit_outer_traced p max (fuel + 1) (n : Int) =
      (Read.outer ((n / 32 : Nat) : Int) ::
          (find_first_zero_bit_inner_traced p fuel (n : Int)).1,
        (find_first_zero_bit_inner_traced p fuel (n : Int)).2) := by
  rw [find_first_zero_bit_outer_traced, if_pos (by omega), word_at_nat, hw]
  simp only
  rw [if_pos hne, shiftRight_five_int]

theorem outer_traced_nat_skip (p : List Nat) (max fuel n : Nat) (hn : n < max)
    (hw : p[n / 32]? = some NOT_ZERO) :
    find_first_zero_bit_outer_traced p max (fuel + 1) (n : Int) =
      (Read.outer ((n / 32 : Nat) : Int) ::
          (find_first_zero_bit_outer_traced p max fuel (wrap_int ((n : Int) + 32))).1,
        (find_first_zero_bit_outer_traced p max fuel (wrap_int ((n : Int) + 32))).2) := by
  rw [find_first_zero_bit_outer_traced, if_pos (by omega), word_at_nat, hw]
  simp only
  rw [if_neg (fun h => h rfl), shiftRight_five_int]

theorem inner_traced_scan (p : List Nat) (k w j0 : Nat) (hw : p[k]? = some w) (hj0 : j0 < 32)
    (hk : 32 * k + 32 ≤ 2 ^ 31)
    (hclear : w.testBit j0 = false) (hset : ∀ i, i < j0 → w.testBit i = true) :
    ∀ fuel j, j ≤ j0 → j0 - j + 1 ≤ fuel →
      find_first_zero_bit_inner_traced p fuel ((32 * k + j : Nat) : Int) =
        (List.replicate (j0 - j + 1) (Read.inner (k : Int)), Run.ret (32 * k + j0)) := by
  intro fuel
  induction fuel with
  | zero => intro j _ hf; omega
  | succ n ih =>
    intro j hj hf
    have hidx : (32 * k + j) / 32 = k := by omega
    have hmod : (32 * k + j) % 32 = j := by omega
    have hwj : p[(32 * k + j) / 32]? = some w := by rw [hidx]; exact hw
    by_cases hjj : j = j0
    · subst hjj
      rw [inner_traced_nat_hit p n _ w hwj (by rw [hmod]; exact hclear), hidx]
      simp
    · have hlt : j < j0 := by omega
      rw [inner_traced_nat_miss p n _ w hwj (by rw [hmod]; exact hset j hlt),
        wrap_int_succ (32 * k + j) (by omega), hidx]
      have hnext := ih (j + 1) (by omega) (by omega)
      rw [show 32 * k + j + 1 = 32 * k + (j + 1) from rfl, hnext]
      have hcount : j0 - j + 1 = (j0 - (j + 1) + 1) + 1 := by omega
      rw [hcount]
      rfl

theorem outer_traced_scan (p : List Nat) (max : Nat) (hmax : max ≤ 2147483616)
    (hwf : words32 p) (hlen : (max + 31) / 32 ≤ p.length) :
    ∀ fuel k, k ≤ (max + 31) / 32 → (max + 31) / 32 - k + 33 ≤ fuel →
      ∃ t r, find_first_zero_bit_outer_traced p max fuel ((32 * k : Nat) : Int) =
          (t, Run.ret r) ∧
        (∀ e, e ∈ t → ∃ c : Nat, e.word = (c : Int) ∧ c < (max + 31) / 32) ∧
        (∀ c : Nat, Read.inner (c : Int) ∈ t → p[c]? ≠ some NOT_ZERO ∧ r / 32 = c) := by
  intro fuel
  induction fuel with
  | zero => intro k _ hf; omega
  | succ n ih =>
    intro k hk hf
    by_cases hb : 32 * k < max
    · have hk2 : k < (max + 31) / 32 := by omega
      have hkl : k < p.length := by omega
      have hw := getElem?_of_lt p k hkl
      have hidx : 32 * k / 32 = k := by omega
      have hwk : p[32 * k / 32]? = some (p.getD k 0) := by rw [hidx]; exact hw
      by_cases hones : p.getD k 0 = NOT_ZERO
      · rw [hones] at hwk
        rw [outer_traced_nat_skip p max n (32 * k) hb hwk,
          wrap_int_add_32 (32 * k) (by omega), hidx]
        have h32 : 32 * k + 32 = 32 * (k + 1) := by ring
        obtain ⟨t, r, hrun, hword, hinner⟩ := ih (k + 1) (by omega) (by omega)
        rw [h32, hrun]
        refine ⟨Read.outer (k : Int) :: t, r, rfl, fun e he => ?_, fun c hc => ?_⟩
        · rcases List.mem_cons.1 he with h | h
          · rw [h]; exact ⟨k, rfl, hk2⟩
          · exact hword e h
        · rcases List.mem_cons.1 hc with h | h
          · cases h
          · exact hinner c h
      · rw [outer_traced_nat_enter p max n (32 * k) _ hb hwk hones, hidx]
        have hw32 : p.getD k 0 < 2 ^ 32 := by
          apply hwf
          rw [List.getD_eq_getElem?_getD, List.getElem?_eq_getElem hkl]
          exact List.getElem_mem hkl
        obtain ⟨j0, hj0, hclear, hset⟩ := exists_lowest_clear_bit _ hw32 hones
        have hrun := inner_traced_scan p k _ j0 hw hj0 (by omega) hclear hset n 0
          (Nat.zero_le _) (by omega)
        rw [show 32 * k = 32 * k + 0 from rfl, hrun]
        refine ⟨_, _, rfl, fun e he => ?_, fun c hc => ?_⟩
        · rcases List.mem_cons.1 he with h | h
          · rw [h]; exact ⟨k, rfl, hk2⟩
          · rw [List.eq_of_mem_replicate h]; exact ⟨k, rfl, hk2⟩
        · rcases List.mem_cons.1 hc with h | h
          · cases h
          · have hck := List.eq_of_mem_replicate h
            have hck2 : (c : Int) = (k : Int) := by injection hck
            have hck3 : c = k := by omega
            subst hck3
            refine ⟨fun h2 => hones ?_, by omega⟩
            rw [hw] at h2
            exact Option.some.inj h2
    · rw [outer_traced_nat_done p max n (32 * k) hb]
      exact ⟨[], max, rfl, fun e he => absurd he (List.not_mem_nil e),
        fun c hc => absurd hc (List.not_mem_nil _)⟩

/-- C14: for a bound `max` of at most `INT_MAX - 31` and an array of 32-bit
words that covers `max`, `find_first_zero_bit` terminates (a budget of
`ceil(max / 32) + 33` loop tests is enough) and reads only words of the array
with index below `ceil(max / 32)`.  Every read of the inner `for (;;)` is a
read of one word, which is not all ones and is the word of the returned index:
the inner loop returns before `b` leaves the word at which it was entered. -/
theorem find_first_zero_bit_terminates (p : List Nat) (max fuel : Nat)
    (hmax : max ≤ INT_MAX - 31) (hwf : words32 p)
    (hlen : (max + 31) / 32 ≤ p.length) (hfuel : (max + 31) / 32 + 33 ≤ fuel) :
    ∃ t r, find_first_zero_bit_traced fuel p max = (t, Run.ret r) ∧
      find_first_zero_bit fuel p max = Run.ret r ∧
      (∀ e, e ∈ t → ∃ c : Nat, e.word = (c : Int) ∧ c < (max + 31) / 32) ∧
      (∀ c : Nat, Read.inner (c : Int) ∈ t → p[c]? ≠ some NOT_ZERO ∧ r / 32 = c) := by
  have hm : max ≤ 2147483616 := hmax
  obtain ⟨t, r, hrun, hword, hinner⟩ :=
    outer_traced_scan p max hm hwf hlen fuel 0 (Nat.zero_le _) (by omega)
  have hrun2 : find_first_zero_bit_traced fuel p max = (t, Run.ret r) := hrun
  refine ⟨t, r, hrun2, ?_, hword, hinner⟩
  rw [← find_first_zero_bit_traced_snd, hrun2]

theorem find_first_zero_bit_terminates_witness :
    ∃ t r, find_first_zero_bit_traced 35 [0xFFFFFFFF, 0xFFFFFFFB] 40 = (t, Run.ret r) ∧
      find_first_zero_bit 35 [0xFFFFFFFF, 0xFFFFFFFB] 40 = Run.ret r ∧
      (∀ e, e ∈ t → ∃ c : Nat, e.word = (c : Int) ∧ c < (40 + 31) / 32) ∧
      (∀ c : Nat, Read.inner (c : Int) ∈ t →
        [0xFFFFFFFF, 0xFFFFFFFB][c]? ≠ some NOT_ZERO ∧ r / 32 = c) :=
  find_first_zero_bit_terminates [0xFFFFFFFF, 0xFFFFFFFB] 40 35 (by decide)
    (by unfold words32; decide) (by decide) (by decide)

theorem outer_traced_negative (p : List Nat) (max fuel : Nat) :
    find_first_zero_bit_outer_traced p max (fuel + 1) (-2147483648) =
      ([Read.outer (-67108864)], Run.fault) := by
  have hlt : (-2147483648 : Int) < (max : Int) := by omega
  have hnone : word_at p (Int.shiftRight (-2147483648) 5) = none := rfl
  have hidx : Int.shiftRight (-2147483648) 5 = -67108864 := by decide
  rw [find_first_zero_bit_outer_traced, if_pos hlt, hnone, hidx]

theorem outer_traced_all_ones_wraps (p : List Nat) (max : Nat)
    (hall : ∀ k, k < 67108864 → p[k]? = some NOT_ZERO) (hmax : 2147483616 < max) :
    ∀ fuel k, k < 67108864 → 67108864 - k + 1 ≤ fuel →
      (find_first_zero_bit_outer_traced p max fuel ((32 * k : Nat) : Int)).2 = Run.fault ∧
      Read.outer (-67108864) ∈
        (find_first_zero_bit_outer_traced p max fuel ((32 * k : Nat) : Int)).1 := by
  intro fuel
  induction fuel with
  | zero => intro k _ hf; omega
  | succ n ih =>
    intro k hk hf
    have hb : 32 * k < max := by omega
    have hw : p[32 * k / 32]? = some NOT_ZERO := by
      have : 32 * k / 32 = k := by omega
      rw [this]
      exact hall k hk
    rw [outer_traced_nat_skip p max n (32 * k) hb hw]
    by_cases hk1 : k + 1 < 67108864
    · rw [wrap_int_add_32 (32 * k) (by omega)]
      have h32 : 32 * k + 32 = 32 * (k + 1) := by ring
      rw [h32]
      obtain ⟨h1, h2⟩ := ih (k + 1) hk1 (by omega)
      exact ⟨h1, List.mem_cons_of_mem _ h2⟩
    · rw [wrap_int_at_int_max k (by omega)]
      obtain ⟨n', rfl⟩ : ∃ n', n = n' + 1 := ⟨n - 1, by omega⟩
      rw [outer_traced_negative p max n']
      exact ⟨rfl, List.mem_cons_of_mem _ (List.mem_singleton.2 rfl)⟩

/-- Counterexample to C14 as stated: at `max = INT_MAX = 2147483647` with all
67108864 covered words all ones, `find_first_zero_bit` does not return: the
counter wraps at `b += 32` and the last read is `ptr[-67108864]`, which is no
word of the array. -/
theorem find_first_zero_bit_reads_below_array :
    (find_first_zero_bit_traced 67108865 (List.replicate 67108864 0xFFFFFFFF) 2147483647).2 =
      Run.fault ∧
    Read.outer (-67108864) ∈
      (find_first_zero_bit_traced 67108865 (List.replicate 67108864 0xFFFFFFFF)
        2147483647).1 ∧
    (Read.outer (-67108864)).word < 0 :=
  ⟨(outer_traced_all_ones_wraps (List.replicate 67108864 0xFFFFFFFF) 2147483647
      replicate_all_ones (by decide) 67108865 0 (by decide) (by decide)).1,
    (outer_traced_all_ones_wraps (List.replicate 67108864 0xFFFFFFFF) 2147483647
      replicate_all_ones (by decide) 67108865 0 (by decide) (by decide)).2,
    by decide⟩

/-! ### What find_first_zero_bit returns -/

theorem inner_ret_clear (p : List Nat) (r : Nat) :
    ∀ fuel (b : Int), find_first_zero_bit_inner p fuel b = Run.ret r →
      bit_is_set p r = false := by
  intro fuel
  induction fuel with
  | zero => intro b h; simp [find_first_zero_bit_inner] at h
  | succ n ih =>
    intro b h
    cases hw : word_at p (Int.shiftRight b 5) with
    | none =>
      rw [find_first_zero_bit_inner, hw] at h
      cases h
    | some w =>
      obtain ⟨c, rfl⟩ := word_at_some_nat p b w hw
      rw [word_at_nat] at hw
      cases hbit : w.testBit (c % 32) with
      | false =>
        rw [inner_nat_hit p n c w hw hbit] at h
        have hcr : c = r := by injection h
        rw [← hcr, bit_is_set_eq p c w hw]
        exact hbit
      | true =>
        rw [inner_nat_miss p n c w hw hbit] at h
        exact ih _ h

theorem outer_ret_clear (p : List Nat) (max r : Nat) :
    ∀ fuel (b : Int), find_first_zero_bit_outer p max fuel b = Run.ret r →
      r = max ∨ bit_is_set p r = false := by
  intro fuel
  induction fuel with
  | zero => intro b h; simp [find_first_zero_bit_outer] at h
  | succ n ih =>
    intro b h
    unfold find_first_zero_bit_outer at h
    by_cases hb : b < (max : Int)
    · rw [if_pos hb] at h
      cases hw : word_at p (Int.shiftRight b 5) with
      | none => rw [hw] at h; simp at h
      | some w =>
        rw [hw] at h
        simp only at h
        by_cases hz : w ≠ NOT_ZERO
        · rw [if_pos hz] at h
          exact Or.inr (inner_ret_clear p r n b h)
        · rw [if_neg hz] at h
          exact ih _ h
    · rw [if_neg hb] at h
      cases h
      exact Or.inl rfl

/-- C15: for a bound `max = 32 * m` (an `int`, so at most `INT_MAX`) and an
array of (at least) `m` words, `find_first_zero_bit` returns the lowest clear
bit index below `max`, or `max` when all `max` bits are set; so it never
returns more than `max`. -/
theorem find_first_zero_bit_multiple_of_32 (p : List Nat) (m fuel : Nat)
    (hint : 32 * m ≤ INT_MAX) (hwf : words32 p)
    (hlen : m ≤ p.length) (hfuel : m + 33 ≤ fuel) :
    find_first_zero_bit fuel p (32 * m) = Run.ret (first_zero_below p (32 * m)) ∧
    first_zero_below p (32 * m) ≤ 32 * m ∧
    ((∀ i, i < 32 * m → bit_is_set p i = true) → first_zero_below p (32 * m) = 32 * m) := by
  have hceil : (32 * m + 31) / 32 = m := by omega
  have hi : 32 * m ≤ 2147483647 := hint
  obtain ⟨r, hrun, hset, hr⟩ :=
    find_first_zero_bit_scan p (32 * m) fuel (by omega) hwf (by rw [hceil]; exact hlen)
      (by rw [hceil]; exact hfuel)
  rw [hceil] at hr
  have hle : r ≤ 32 * m := by
    rcases hr with h | h
    · omega
    · omega
  have hclr : r = 32 * m ∨ bit_is_set p r = false := by
    rcases hr with h | h
    · exact Or.inl h
    · exact Or.inr h.2
  have heq := first_zero_below_eq p (32 * m) r hle hset hclr
  rw [heq]
  refine ⟨hrun, hle, fun hall => ?_⟩
  rcases hclr with h | h
  · exact h
  · by_contra hne
    have := hall r (by omega)
    rw [h] at this
    cases this

theorem find_first_zero_bit_multiple_of_32_witness :
    find_first_zero_bit 35 [0xFFFFFFFF, 0xFFFFFFBF] (32 * 2) =
      Run.ret (first_zero_below [0xFFFFFFFF, 0xFFFFFFBF] (32 * 2)) ∧
    first_zero_below [0xFFFFFFFF, 0xFFFFFFBF] (32 * 2) ≤ 32 * 2 ∧
    ((∀ i, i < 32 * 2 → bit_is_set [0xFFFFFFFF, 0xFFFFFFBF] i = true) →
      first_zero_below [0xFFFFFFFF, 0xFFFFFFBF] (32 * 2) = 32 * 2) :=
  find_first_zero_bit_multiple_of_32 [0xFFFFFFFF, 0xFFFFFFBF] 2 35 (by decide)
    (by unfold words32; decide) (by decide) (by decide)

/-- C16: for a bound `max` of at most `INT_MAX - 31` and an array that covers
`max`, `find_first_zero_bit(p, max)` returns a result `r` that has every bit
below `r` set, and bit `r` clear unless `r = max`; so when `r < max`, `r` is
the lowest clear bit of the array. -/
theorem find_first_zero_bit_result (p : List Nat) (max fuel : Nat)
    (hmax : max ≤ INT_MAX - 31) (hwf : words32 p)
    (hlen : (max + 31) / 32 ≤ p.length) (hfuel : (max + 31) / 32 + 33 ≤ fuel) :
    ∃ r, find_first_zero_bit fuel p max = Run.ret r ∧
      (∀ i, i < r → bit_is_set p i = true) ∧
      (r ≠ max → bit_is_set p r = false) ∧
      (r < max → bit_is_set p r = false ∧ ∀ i, bit_is_set p i = false → r ≤ i) := by
  have hm : max ≤ 2147483616 := hmax
  obtain ⟨r, hrun, hset, hr⟩ := find_first_zero_bit_scan p max fuel hm hwf hlen hfuel
  have hclr : r ≠ max → bit_is_set p r = false := by
    intro hne
    rcases hr with h | h
    · exact absurd h hne
    · exact h.2
  refine ⟨r, hrun, hset, hclr, fun hlt => ⟨hclr (by omega), fun i hi => ?_⟩⟩
  by_contra hcon
  have := hset i (by omega)
  rw [hi] at this
  cases this

theorem find_first_zero_bit_result_witness :
    ∃ r, find_first_zero_bit 35 [0xFFFFFFFF, 0xFFFFFFBF] 37 = Run.ret r ∧
      (∀ i, i < r → bit_is_set [0xFFFFFFFF, 0xFFFFFFBF] i = true) ∧
      (r ≠ 37 → bit_is_set [0xFFFFFFFF, 0xFFFFFFBF] r = false) ∧
      (r < 37 → bit_is_set [0xFFFFFFFF, 0xFFFFFFBF] r = false ∧
        ∀ i, bit_is_set [0xFFFFFFFF, 0xFFFFFFBF] i = false → r ≤ i) :=
  find_first_zero_bit_result [0xFFFFFFFF, 0xFFFFFFBF] 37 35 (by decide)
    (by unfold words32; decide) (by decide) (by decide)

/-- Counterexample to C16 as stated: at `max = INT_MAX = 2147483647` with all
67108864 covered words all ones, `find_first_zero_bit` yields no result `r` at
all, under any budget: the counter wraps at `b += 32` and the next read is
below the array. -/
theorem find_first_zero_bit_no_result_int_max :
    (2147483647 + 31) / 32 ≤ (List.replicate 67108864 0xFFFFFFFF).length ∧
    ∀ fuel r, find_first_zero_bit fuel (List.replicate 67108864 0xFFFFFFFF) 2147483647 ≠
      Run.ret r :=
  ⟨by rw [List.length_replicate],
    fun fuel => (outer_all_ones_wraps (List.replicate 67108864 0xFFFFFFFF) 2147483647
      replicate_all_ones (by decide) fuel 0 (by decide)).1⟩

/-! ### Writes and the scan -/

theorem set_bit_some (b : Nat) (p q : List Nat) (h : set_bit b p = some q) :
    ∃ w, p[b / 32]? = some w ∧ q = p.set (b / 32) (atomic_set_int w (2 ^ (b % 32))) := by
  cases hw : p[b / 32]? with
  | none =>
    unfold set_bit at h
    rw [shiftRight_five, hw] at h
    cases h
  | some w =>
    rw [set_bit_eq b p w hw] at h
    exact ⟨w, rfl, (Option.some.inj h).symm⟩

theorem clear_bit_some (b : Nat) (p q : List Nat) (h : clear_bit b p = some q) :
    ∃ w, p[b / 32]? = some w ∧ q = p.set (b / 32) (atomic_clear_int w (2 ^ (b % 32))) := by
  cases hw : p[b / 32]? with
  | none =>
    unfold clear_bit at h
    rw [shiftRight_five, hw] at h
    cases h
  | some w =>
    rw [clear_bit_eq b p w hw] at h
    exact ⟨w, rfl, (Option.some.inj h).symm⟩

theorem index_eq_iff (b c : Nat) (hw : c / 32 = b / 32) : b % 32 = c % 32 ↔ c = b := by
  have e1 := Nat.div_add_mod c 32
  have e2 := Nat.div_add_mod b 32
  constructor
  · intro h; omega
  · intro h; rw [h]

theorem bit_is_set_after_set (b c : Nat) (p q : List Nat) (h : set_bit b p = some q) :
    bit_is_set q c = (bit_is_set p c || decide (c = b)) := by
  obtain ⟨w, hw, rfl⟩ := set_bit_some b p q h
  have hlt : b / 32 < p.length := by
    rcases List.getElem?_eq_some.1 hw with ⟨hl, _⟩
    exact hl
  by_cases hcw : c / 32 = b / 32
  · have h1 : (p.set (b / 32) (atomic_set_int w (2 ^ (b % 32))))[c / 32]? =
        some (atomic_set_int w (2 ^ (b % 32))) := by
      rw [hcw]; exact List.getElem?_set_self hlt
    rw [bit_is_set_eq _ c _ h1, bit_is_set_eq p c w (by rw [hcw]; exact hw), testBit_set_mask]
    congr 1
    exact decide_eq_decide.2 (index_eq_iff b c hcw)
  · have h1 : (p.set (b / 32) (atomic_set_int w (2 ^ (b % 32))))[c / 32]? = p[c / 32]? :=
      List.getElem?_set_ne (fun h => hcw h.symm)
    have hne : ¬ c = b := fun h => hcw (by rw [h])
    unfold bit_is_set
    rw [List.getD_eq_getElem?_getD, List.getD_eq_getElem?_getD, h1, decide_eq_false hne,
      Bool.or_false]

theorem bit_is_set_after_clear (b c : Nat) (p q : List Nat) (h : clear_bit b p = some q) :
    bit_is_set q c = (bit_is_set p c && decide (c ≠ b)) := by
  obtain ⟨w, hw, rfl⟩ := clear_bit_some b p q h
  have hlt : b / 32 < p.length := by
    rcases List.getElem?_eq_some.1 hw with ⟨hl, _⟩
    exact hl
  by_cases hcw : c / 32 = b / 32
  · have h1 : (p.set (b / 32) (atomic_clear_int w (2 ^ (b % 32))))[c / 32]? =
        some (atomic_clear_int w (2 ^ (b % 32))) := by
      rw [hcw]; exact List.getElem?_set_self hlt
    rw [bit_is_set_eq _ c _ h1, bit_is_set_eq p c w (by rw [hcw]; exact hw),
      testBit_clear_mask _ _ _ (Nat.mod_lt _ (by decide))]
    congr 1
    exact decide_eq_decide.2 (not_congr (index_eq_iff b c hcw))
  · have h1 : (p.set (b / 32) (atomic_clear_int w (2 ^ (b % 32))))[c / 32]? = p[c / 32]? :=
      List.getElem?_set_ne (fun h => hcw h.symm)
    have hne : c ≠ b := fun h => hcw (by rw [h])
    unfold bit_is_set
    rw [List.getD_eq_getElem?_getD, List.getD_eq_getElem?_getD, h1, decide_eq_true hne,
      Bool.and_true]

theorem words32_after_set (b : Nat) (p q : List Nat) (hwf : words32 p)
    (h : set_bit b p = some q) : words32 q ∧ q.length = p.length := by
  obtain ⟨w, hw, rfl⟩ := set_bit_some b p q h
  refine ⟨fun x hx => ?_, List.length_set _ _ _⟩
  rcases List.mem_or_eq_of_mem_set hx with hmem | heq
  · exact hwf x hmem
  · rw [heq]
    have hw32 : w < 2 ^ 32 := by
      rcases List.getElem?_eq_some.1 hw with ⟨hl, he⟩
      exact hwf w (by rw [← he]; exact List.getElem_mem hl)
    exact Nat.or_lt_two_pow hw32 (two_pow_lt _ (Nat.mod_lt _ (by decide)))

theorem bit_kept_by_ops (r : Nat) :
    ∀ (ops : List BitOp) (q q' : List Nat), BitOp.clear r ∉ ops → bit_is_set q r = true →
      run_bit_ops q ops = some q' → bit_is_set q' r = true := by
  intro ops
  induction ops with
  | nil =>
    intro q q' _ hbit hrun
    have : q = q' := Option.some.inj hrun
    rw [← this]; exact hbit
  | cons op ops ih =>
    intro q q' hno hbit hrun
    unfold run_bit_ops at hrun
    cases hop : op.apply q with
    | none => rw [hop] at hrun; cases hrun
    | some q1 =>
      rw [hop] at hrun
      simp only at hrun
      refine ih q1 q' (fun hmem => hno (List.mem_cons_of_mem _ hmem)) ?_ hrun
      cases op with
      | set b =>
        rw [bit_is_set_after_set b r q q1 hop, hbit]
        rfl
      | clear b =>
        have hne : r ≠ b := by
          intro hrb
          apply hno
          rw [hrb]
          exact List.mem_cons_self _ _
        rw [bit_is_set_after_clear b r q q1 hop, hbit, decide_eq_true hne]
        rfl

/-- C17: for a bound `max` of at most `INT_MAX - 31`: if
`find_first_zero_bit(p, max)` returns `r < max`, then after `set_bit(r, p)` a
second call returns a value strictly greater than `r`, and no later call
returns `r` as long as the writes made to the array in between (any
`set_bit`, any `clear_bit` of another index) do not include
`clear_bit(r, p)`. -/
theorem find_first_zero_bit_progress (p : List Nat) (max fuel r : Nat)
    (hmax : max ≤ INT_MAX - 31) (hwf : words32 p)
    (hlen : (max + 31) / 32 ≤ p.length) (hfuel : (max + 31) / 32 + 33 ≤ fuel)
    (hr : find_first_zero_bit fuel p max = Run.ret r) (hlt : r < max) :
    ∃ q, set_bit r p = some q ∧
      (∃ r', find_first_zero_bit fuel q max = Run.ret r' ∧ r < r') ∧
      (∀ ops q', BitOp.clear r ∉ ops → run_bit_ops q ops = some q' →
        ∀ fuel', find_first_zero_bit fuel' q' max ≠ Run.ret r) := by
  have hm : max ≤ 2147483616 := hmax
  have hrl : r / 32 < p.length := by omega
  have hq := set_bit_eq r p _ (getElem?_of_lt p (r / 32) hrl)
  refine ⟨_, hq, ?_, ?_⟩
  · obtain ⟨hwfq, hlenq⟩ := words32_after_set r p _ hwf hq
    obtain ⟨r0, hrun0, hset0, _⟩ := find_first_zero_bit_scan p max fuel hm hwf hlen hfuel
    have hr0 : r0 = r := by
      rw [hr] at hrun0
      injection hrun0 with h
      exact h.symm
    rw [hr0] at hset0
    obtain ⟨r', hrun', hset', hr'⟩ :=
      find_first_zero_bit_scan _ max fuel hm hwfq (by rw [hlenq]; exact hlen) hfuel
    refine ⟨r', hrun', ?_⟩
    rcases hr' with h | ⟨_, hclr⟩
    · omega
    · rw [bit_is_set_after_set r r' p _ hq] at hclr
      have hne : r' ≠ r := by
        intro h
        rw [h] at hclr
        simp at hclr
      by_contra hcon
      have hbelow := hset0 r' (by omega)
      rw [hbelow] at hclr
      cases hclr
  · intro ops q' hno hrun fuel' hret
    have hbitq : bit_is_set (p.set (r / 32) (atomic_set_int (p.getD (r / 32) 0) (2 ^ (r % 32)))) r
        = true := by
      rw [bit_is_set_after_set r r p _ hq]
      simp
    have hbit := bit_kept_by_ops r ops _ q' hno hbitq hrun
    rcases outer_ret_clear q' max r fuel' 0 hret with h | h
    · omega
    · rw [hbit] at h
      cases h

theorem find_first_zero_bit_progress_witness :
    ∃ q, set_bit 34 [0xFFFFFFFF, 0xFFFFFFFB] = some q ∧
      (∃ r', find_first_zero_bit 35 q 40 = Run.ret r' ∧ 34 < r') ∧
      (∀ ops q', BitOp.clear 34 ∉ ops → run_bit_ops q ops = some q' →
        ∀ fuel', find_first_zero_bit fuel' q' 40 ≠ Run.ret 34) :=
  find_first_zero_bit_progress [0xFFFFFFFF, 0xFFFFFFFB] 40 35 34 (by decide)
    (by unfold words32; decide) (by decide) (by decide) (by decide) (by decide)

theorem cons_replicate_all_ones (k : Nat) (hk : k < 67108864) :
    (0xFFFFFFFF :: List.replicate 67108863 0xFFFFFFFF)[k]? = some NOT_ZERO := by
  cases k with
  | zero => rw [List.getElem?_cons_zero]; rfl
  | succ j =>
    rw [List.getElem?_cons_succ, List.getElem?_replicate, if_pos (by omega)]
    rfl

/-- Counterexample to C17 as stated: at `max = INT_MAX = 2147483647` with bit
0 the only clear bit of the 67108864 covered words, the first call returns
`r = 0 < max`, `set_bit(0, p)` leaves every word all ones, and the second call
returns no value at all (so none greater than `r`): its counter wraps at
`b += 32`. -/
theorem find_first_zero_bit_no_progress_int_max :
    find_first_zero_bit 2 (0xFFFFFFFE :: List.replicate 67108863 0xFFFFFFFF) 2147483647 =
      Run.ret 0 ∧
    set_bit 0 (0xFFFFFFFE :: List.replicate 67108863 0xFFFFFFFF) =
      some (0xFFFFFFFF :: List.replicate 67108863 0xFFFFFFFF) ∧
    find_first_zero_bit 67108865 (0xFFFFFFFF :: List.replicate 67108863 0xFFFFFFFF)
      2147483647 = Run.fault ∧
    ∀ fuel r', find_first_zero_bit fuel (0xFFFFFFFF :: List.replicate 67108863 0xFFFFFFFF)
      2147483647 ≠ Run.ret r' := by
  have h := outer_all_ones_wraps (0xFFFFFFFF :: List.replicate 67108863 0xFFFFFFFF)
    2147483647 cons_replicate_all_ones (by decide)
  refine ⟨?_, ?_, (h 67108865 0 (by decide)).2 (by decide),
    fun fuel => (h fuel 0 (by decide)).1⟩
  · have hw : (0xFFFFFFFE :: List.replicate 67108863 0xFFFFFFFF)[0 / 32]? =
        some 0xFFFFFFFE := by
      rw [Nat.zero_div, List.getElem?_cons_zero]
    have h1 := outer_nat_enter (0xFFFFFFFE :: List.replicate 67108863 0xFFFFFFFF) 2147483647 1
      0 0xFFFFFFFE (by decide) hw (by decide)
    have h2 := inner_nat_hit (0xFFFFFFFE :: List.replicate 67108863 0xFFFFFFFF) 0 0 0xFFFFFFFE
      hw (by decide)
    exact h1.trans h2
  · have hw : (0xFFFFFFFE :: List.replicate 67108863 0xFFFFFFFF)[0 / 32]? =
        some 0xFFFFFFFE := by
      rw [Nat.zero_div, List.getElem?_cons_zero]
    rw [set_bit_eq 0 _ 0xFFFFFFFE hw, Nat.zero_div, List.set_cons_zero]
    rfl

/-! ### Bitmaps sized with BITS_TO_LONGS -/

theorem BITS_TO_LONGS_words (sizeof_long n : Nat) (hs : sizeof_long = 4 ∨ sizeof_long = 8)
    (hint : n < 2 ^ 31) :
    (n + 31) / 32 ≤ BITS_TO_LONGS sizeof_long n * (NBBY * sizeof_long / 32) := by
  rcases hs with h | h
  · subst h
    have h32 : NBBY * 4 = 32 := rfl
    rw [BITS_TO_LONGS_eq 4 n (by rw [h32]; omega), h32]
    omega
  · subst h
    have h64 : NBBY * 8 = 64 := rfl
    have hpow : (2 : Nat) ^ 31 < 2 ^ 64 := by decide
    rw [BITS_TO_LONGS_eq 8 n (by rw [h64]; omega), h64]
    omega

/-- C19: for a `long` of 32 or 64 bits and a bit count `n` (an `int`), an
array of `BITS_TO_LONGS(n)` longs holds at least `ceil(n / 32)` 32-bit words;
so for every `b < n` the word index `b >> 5` of `set_bit`, `clear_bit` and
`test_bit` is inside the array, and for `n` of at most `INT_MAX - 31`
`find_first_zero_bit(p, n)` returns after reading only words of the array. -/
theorem bitmap_sized_by_BITS_TO_LONGS (sizeof_long n : Nat)
    (hs : sizeof_long = 4 ∨ sizeof_long = 8) (hint : n < 2 ^ 31) (p : List Nat)
    (hp : p.length = BITS_TO_LONGS sizeof_long n * (NBBY * sizeof_long / 32)) :
    (n + 31) / 32 ≤ p.length ∧
    (∀ b, b < n → b >>> 5 < p.length ∧ (set_bit b p).isSome = true ∧
      (clear_bit b p).isSome = true ∧ (test_bit b p).isSome = true) ∧
    (n ≤ INT_MAX - 31 → words32 p → ∀ fuel, (n + 31) / 32 + 33 ≤ fuel →
      ∃ t r, find_first_zero_bit_traced fuel p n = (t, Run.ret r) ∧
        find_first_zero_bit fuel p n = Run.ret r ∧
        ∀ e, e ∈ t → ∃ c : Nat, e.word = (c : Int) ∧ c < p.length) := by
  have hwords : (n + 31) / 32 ≤ p.length := by
    rw [hp]; exact BITS_TO_LONGS_words sizeof_long n hs hint
  refine ⟨hwords, fun b hb => ?_, fun hmax hwf fuel hfuel => ?_⟩
  · have hbl : b / 32 < p.length := by omega
    have hw := getElem?_of_lt p (b / 32) hbl
    refine ⟨by rw [shiftRight_five]; exact hbl, ?_, ?_, ?_⟩
    · rw [set_bit_eq b p _ hw]; rfl
    · rw [clear_bit_eq b p _ hw]; rfl
    · rw [test_bit_eq b p _ hw]; rfl
  · have hm : n ≤ 2147483616 := hmax
    obtain ⟨t, r, hrun, hword, _⟩ :=
      outer_traced_scan p n hm hwf hwords fuel 0 (Nat.zero_le _) (by omega)
    have hrun2 : find_first_zero_bit_traced fuel p n = (t, Run.ret r) := hrun
    refine ⟨t, r, hrun2, ?_, fun e he => ?_⟩
    · rw [← find_first_zero_bit_traced_snd, hrun2]
    · obtain ⟨c, hc, hlt⟩ := hword e he
      exact ⟨c, hc, Nat.lt_of_lt_of_le hlt hwords⟩

theorem bitmap_sized_by_BITS_TO_LONGS_witness :
    (33 + 31) / 32 ≤ [0xFFFFFFFF, 0xFFFFFFFD].length ∧
    (∀ b, b < 33 → b >>> 5 < [0xFFFFFFFF, 0xFFFFFFFD].length ∧
      (set_bit b [0xFFFFFFFF, 0xFFFFFFFD]).isSome = true ∧
      (clear_bit b [0xFFFFFFFF, 0xFFFFFFFD]).isSome = true ∧
      (test_bit b [0xFFFFFFFF, 0xFFFFFFFD]).isSome = true) ∧
    (33 ≤ INT_MAX - 31 → words32 [0xFFFFFFFF, 0xFFFFFFFD] →
      ∀ fuel, (33 + 31) / 32 + 33 ≤ fuel →
      ∃ t r, find_first_zero_bit_traced fuel [0xFFFFFFFF, 0xFFFFFFFD] 33 = (t, Run.ret r) ∧
        find_first_zero_bit fuel [0xFFFFFFFF, 0xFFFFFFFD] 33 = Run.ret r ∧
        ∀ e, e ∈ t →
          ∃ c : Nat, e.word = (c : Int) ∧ c < [0xFFFFFFFF, 0xFFFFFFFD].length) :=
  bitmap_sized_by_BITS_TO_LONGS 8 33 (Or.inr rfl) (by decide)
    [0xFFFFFFFF, 0xFFFFFFFD] (by decide)

/-- Counterexample to C19 as stated: for a 64-bit `long` and
`n = INT_MAX = 2147483647`, an array of `BITS_TO_LONGS(n)` longs is 67108864
32-bit words; when they are all ones `find_first_zero_bit(p, n)` reads
`ptr[-67108864]`, outside the array, after its counter wraps at `b += 32`. -/
theorem bitmap_scan_leaves_array_int_max :
    (List.replicate 67108864 0xFFFFFFFF).length =
      BITS_TO_LONGS 8 2147483647 * (NBBY * 8 / 32) ∧
    Read.outer (-67108864) ∈
      (find_first_zero_bit_traced 67108865 (List.replicate 67108864 0xFFFFFFFF)
        2147483647).1 ∧
    (find_first_zero_bit_traced 67108865 (List.replicate 67108864 0xFFFFFFFF) 2147483647).2 =
      Run.fault ∧
    ¬ ∃ c : Nat, (Read.outer (-67108864)).word = (c : Int) := by
  have h := outer_traced_all_ones_wraps (List.replicate 67108864 0xFFFFFFFF) 2147483647
    replicate_all_ones (by decide) 67108865 0 (by decide) (by decide)
  refine ⟨?_, h.2, h.1, ?_⟩
  · rw [List.length_replicate]
    decide
  · rintro ⟨c, hc⟩
    have hneg : (Read.outer (-67108864)).word = -67108864 := rfl
    rw [hneg] at hc
    omega

/-! ### Concurrent callers of test_and_set_bit -/

theorem getElem?_set_of_some (l : List Caller) (i j : Nat) (c c' : Caller)
    (h : l[i]? = some c) :
    (l.set i c')[j]? = if j = i then some c' else l[j]? := by
  have hlt : i < l.length := by
    rcases List.getElem?_eq_some.1 h with ⟨hl, _⟩
    exact hl
  by_cases hji : j = i
  · rw [if_pos hji, hji]
    exact List.getElem?_set_self hlt
  · rw [if_neg hji]
    exact List.getElem?_set_ne (fun h => hji h.symm)

theorem caller_step_hit (bit w : Nat) :
    caller_step bit w (Caller.swapping w) =
      (w ||| bit, Caller.returned (if w &&& bit ≠ 0 then 1 else 0)) := by
  simp [caller_step, atomic_cmpset_long, atomic_cmpset]

theorem caller_step_miss (bit w v : Nat) (h : w ≠ v) :
    caller_step bit w (Caller.swapping v) = (w, Caller.reading) := by
  simp [caller_step, atomic_cmpset_long, atomic_cmpset, h]

theorem race_inv_step (w0 bit : Nat) (h0 : w0 &&& bit = 0) (hne : w0 ||| bit ≠ w0)
    (h1 : (w0 ||| bit) &&& bit ≠ 0) (h2 : (w0 ||| bit) ||| bit = w0 ||| bit)
    (s : Shared) (hinv : race_inv w0 bit s) (i : Nat) :
    race_inv w0 bit (shared_step bit s i) := by
  obtain ⟨hw, hsw, hret, hex, huniq⟩ := hinv
  unfold shared_step
  cases hc : s.callers[i]? with
  | none => exact ⟨hw, hsw, hret, hex, huniq⟩
  | some c =>
    have hget : ∀ (c' : Caller) (j : Nat),
        (s.callers.set i c')[j]? = if j = i then some c' else s.callers[j]? :=
      fun c' j => getElem?_set_of_some s.callers i j c c' hc
    cases c with
    | reading =>
      show race_inv w0 bit ⟨s.word, s.callers.set i (Caller.swapping s.word)⟩
      unfold race_inv
      dsimp only
      refine ⟨hw, fun j v hj => ?_, fun j r hj => ?_, fun hword => ?_, fun a b ha hb => ?_⟩
      · rw [hget] at hj
        by_cases hji : j = i
        · rw [if_pos hji] at hj
          have hv : s.word = v := by injection hj with h; injection h
          rw [← hv]
          rcases hw with h | h
          · exact Or.inl h
          · exact Or.inr ⟨h, h⟩
        · rw [if_neg hji] at hj
          exact hsw j v hj
      · rw [hget] at hj
        by_cases hji : j = i
        · rw [if_pos hji] at hj; injection hj with h; cases h
        · rw [if_neg hji] at hj; exact hret j r hj
      · obtain ⟨k, hk⟩ := hex hword
        have hki : k ≠ i := by
          intro h; rw [h, hc] at hk; injection hk with h'; cases h'
        exact ⟨k, by rw [hget, if_neg hki]; exact hk⟩
      · rw [hget] at ha hb
        by_cases hai : a = i
        · rw [if_pos hai] at ha; injection ha with h; cases h
        · by_cases hbi : b = i
          · rw [if_pos hbi] at hb; injection hb with h; cases h
          · rw [if_neg hai] at ha; rw [if_neg hbi] at hb; exact huniq a b ha hb
    | swapping v =>
      by_cases hwv : s.word = v
      · subst hwv
        show race_inv w0 bit ⟨(caller_step bit s.word (Caller.swapping s.word)).1,
          s.callers.set i (caller_step bit s.word (Caller.swapping s.word)).2⟩
        rw [caller_step_hit]
        unfold race_inv
        dsimp only
        rcases hsw i s.word hc with hword0 | ⟨hword1, _⟩
        · have hres : (if s.word &&& bit ≠ 0 then 1 else 0) = 0 := by
            rw [hword0, if_neg (fun h => h h0)]
          have hnot1 : s.word ≠ w0 ||| bit := by rw [hword0]; exact fun h => hne h.symm
          rw [hres]
          refine ⟨Or.inr (by rw [hword0]), fun j v hj => ?_, fun j r hj => ?_,
            fun _ => ⟨i, by rw [hget, if_pos rfl]⟩, fun a b ha hb => ?_⟩
          · rw [hget] at hj
            by_cases hji : j = i
            · rw [if_pos hji] at hj; injection hj with h; cases h
            · rw [if_neg hji] at hj
              rcases hsw j v hj with h | ⟨_, h⟩
              · exact Or.inl h
              · exact absurd h hnot1
          · rw [hget] at hj
            by_cases hji : j = i
            · rw [if_pos hji] at hj
              have hr : 0 = r := by injection hj with h; injection h
              exact ⟨by rw [hword0], Or.inl hr.symm⟩
            · rw [if_neg hji] at hj
              exact absurd (hret j r hj).1 hnot1
          · rw [hget] at ha hb
            by_cases hai : a = i
            · by_cases hbi : b = i
              · rw [hai, hbi]
              · rw [if_neg hbi] at hb
                exact absurd (hret b 0 hb).1 hnot1
            · rw [if_neg hai] at ha
              exact absurd (hret a 0 ha).1 hnot1
        · have hres : (if s.word &&& bit ≠ 0 then 1 else 0) = 1 := by
            rw [hword1, if_pos h1]
          have hnew : s.word ||| bit = w0 ||| bit := by rw [hword1, h2]
          rw [hres, hnew]
          refine ⟨Or.inr rfl, fun j v hj => ?_, fun j r hj => ?_, fun _ => ?_,
            fun a b ha hb => ?_⟩
          · rw [hget] at hj
            by_cases hji : j = i
            · rw [if_pos hji] at hj; injection hj with h; cases h
            · rw [if_neg hji] at hj
              rcases hsw j v hj with h | ⟨h, _⟩
              · exact Or.inl h
              · exact Or.inr ⟨h, rfl⟩
          · rw [hget] at hj
            by_cases hji : j = i
            · rw [if_pos hji] at hj
              have hr : 1 = r := by injection hj with h; injection h
              exact ⟨rfl, Or.inr hr.symm⟩
            · rw [if_neg hji] at hj
              exact ⟨rfl, (hret j r hj).2⟩
          · obtain ⟨k, hk⟩ := hex hword1
            have hki : k ≠ i := by
              intro h; rw [h, hc] at hk; injection hk with h'; cases h'
            exact ⟨k, by rw [hget, if_neg hki]; exact hk⟩
          · rw [hget] at ha hb
            by_cases hai : a = i
            · rw [if_pos hai] at ha; injection ha with h; injection h with h; cases h
            · by_cases hbi : b = i
              · rw [if_pos hbi] at hb; injection hb with h; injection h with h; cases h
              · rw [if_neg hai] at ha; rw [if_neg hbi] at hb; exact huniq a b ha hb
      · show race_inv w0 bit ⟨(caller_step bit s.word (Caller.swapping v)).1,
          s.callers.set i (caller_step bit s.word (Caller.swapping v)).2⟩
        rw [caller_step_miss bit s.word v hwv]
        unfold race_inv
        dsimp only
        refine ⟨hw, fun j v hj => ?_, fun j r hj => ?_, fun hword => ?_, fun a b ha hb => ?_⟩
        · rw [hget] at hj
          by_cases hji : j = i
          · rw [if_pos hji] at hj; injection hj with h; cases h
          · rw [if_neg hji] at hj; exact hsw j v hj
        · rw [hget] at hj
          by_cases hji : j = i
          · rw [if_pos hji] at hj; injection hj with h; cases h
          · rw [if_neg hji] at hj; exact hret j r hj
        · obtain ⟨k, hk⟩ := hex hword
          have hki : k ≠ i := by
            intro h; rw [h, hc] at hk; injection hk with h'; cases h'
          exact ⟨k, by rw [hget, if_neg hki]; exact hk⟩
        · rw [hget] at ha hb
          by_cases hai : a = i
          · rw [if_pos hai] at ha; injection ha with h; cases h
          · by_cases hbi : b = i
            · rw [if_pos hbi] at hb; injection hb with h; cases h
            · rw [if_neg hai] at ha; rw [if_neg hbi] at hb; exact huniq a b ha hb
    | returned r =>
      show race_inv w0 bit ⟨s.word, s.callers.set i (Caller.returned r)⟩
      have hsame : ∀ j : Nat, (s.callers.set i (Caller.returned r))[j]? = s.callers[j]? := by
        intro j
        rw [hget]
        by_cases hji : j = i
        · rw [if_pos hji, hji, hc]
        · rw [if_neg hji]
      unfold race_inv
      dsimp only
      refine ⟨hw, fun j v hj => ?_, fun j r hj => ?_, fun hword => ?_, fun a b ha hb => ?_⟩
      · rw [hsame] at hj; exact hsw j v hj
      · rw [hsame] at hj; exact hret j r hj
      · obtain ⟨k, hk⟩ := hex hword
        exact ⟨k, by rw [hsame]; exact hk⟩
      · rw [hsame] at ha hb; exact huniq a b ha hb

theorem race_inv_init (w0 bit N : Nat) (hne : w0 ||| bit ≠ w0) :
    race_inv w0 bit { word := w0, callers := List.replicate N Caller.reading } := by
  have hrep : ∀ (i : Nat) (c : Caller),
      (List.replicate N Caller.reading)[i]? = some c → c = Caller.reading := by
    intro i c h
    rw [List.getElem?_replicate] at h
    by_cases hi : i < N
    · rw [if_pos hi] at h; injection h with h; exact h.symm
    · rw [if_neg hi] at h; cases h
  unfold race_inv
  dsimp only
  refine ⟨Or.inl rfl, fun i v h => ?_, fun i r h => ?_, fun h => absurd h.symm hne,
    fun i j h _ => ?_⟩
  · cases hrep i _ h
  · cases hrep i _ h
  · cases hrep i _ h

theorem race_inv_run (w0 bit : Nat) (h0 : w0 &&& bit = 0) (hne : w0 ||| bit ≠ w0)
    (h1 : (w0 ||| bit) &&& bit ≠ 0) (h2 : (w0 ||| bit) ||| bit = w0 ||| bit) :
    ∀ (sched : List Nat) (s : Shared), race_inv w0 bit s →
      race_inv w0 bit (shared_run bit s sched) := by
  intro sched
  induction sched with
  | nil => intro s hs; exact hs
  | cons i sched ih =>
    intro s hs
    exact ih (shared_step bit s i) (race_inv_step w0 bit h0 hne h1 h2 s hs i)

theorem shared_step_length (bit : Nat) (s : Shared) (i : Nat) :
    (shared_step bit s i).callers.length = s.callers.length := by
  unfold shared_step
  cases s.callers[i]? with
  | none => rfl
  | some c => exact List.length_set _ _ _

theorem shared_run_length (bit : Nat) :
    ∀ (sched : List Nat) (s : Shared),
      (shared_run bit s sched).callers.length = s.callers.length := by
  intro sched
  induction sched with
  | nil => intro s; rfl
  | cons i sched ih =>
    intro s
    exact (ih (shared_step bit s i)).trans (shared_step_length bit s i)

theorem int_to_long_mask (LONG_BIT b : Nat) (hb : b < 31 ∨ (b = 31 ∧ LONG_BIT = 32)) :
    int_to_long LONG_BIT (shl_int 1 b) = 2 ^ b := by
  have hb32 : b < 32 := by omega
  rw [shl_int_one b hb32]
  unfold int_to_long
  rw [Nat.mod_eq_of_lt (two_pow_lt b hb32)]
  rcases hb with h | ⟨h1, h2⟩
  · rw [if_pos (Nat.pow_lt_pow_right (by decide) h)]
  · subst h1; subst h2; decide

theorem or_two_pow_testBit (w b : Nat) : (w ||| 2 ^ b).testBit b = true := by
  rw [Nat.testBit_or, Nat.testBit_two_pow_self, Bool.or_true]

/-- For `b <= 30`, or `b = 31` with a 32-bit `long`, and a word `w0` with bit
`b` clear: in every state that `N` racing callers of `test_and_set_bit(b, p)`
reach, under every schedule, at most one caller has returned 0, every caller
that has returned has returned 0 or 1 and found bit `b` set in the word, and
as soon as any caller has returned some caller has returned 0. -/
theorem test_and_set_bit_race_once (LONG_BIT b w0 N : Nat)
    (hb : b < 31 ∨ (b = 31 ∧ LONG_BIT = 32)) (hclear : w0.testBit b = false)
    (sched : List Nat) :
    ∃ s, test_and_set_bit_race LONG_BIT b w0 N sched = some s ∧
      s.callers.length = N ∧
      (∀ i j : Nat, s.callers[i]? = some (Caller.returned 0) →
        s.callers[j]? = some (Caller.returned 0) → i = j) ∧
      (∀ i r : Nat, s.callers[i]? = some (Caller.returned r) →
        (r = 0 ∨ r = 1) ∧ s.word.testBit b = true ∧
          ∃ k : Nat, s.callers[k]? = some (Caller.returned 0)) := by
  have hb32 : b < 32 := by omega
  have hpos : 0 < 2 ^ b := Nat.pos_pow_of_pos b (by decide)
  have h0 : w0 &&& 2 ^ b = 0 := by rw [and_two_pow, hclear]; rfl
  have hne : w0 ||| 2 ^ b ≠ w0 := by
    intro h
    have := or_two_pow_testBit w0 b
    rw [h, hclear] at this
    cases this
  have h1 : (w0 ||| 2 ^ b) &&& 2 ^ b ≠ 0 := by
    rw [and_two_pow, or_two_pow_testBit, if_pos rfl]
    omega
  have h2 : (w0 ||| 2 ^ b) ||| 2 ^ b = w0 ||| 2 ^ b := by
    rw [Nat.or_assoc, Nat.or_self]
  have hinv := race_inv_run w0 (2 ^ b) h0 hne h1 h2 sched _ (race_inv_init w0 (2 ^ b) N hne)
  have hlen := shared_run_length (2 ^ b) sched
    { word := w0, callers := List.replicate N Caller.reading }
  refine ⟨shared_run (2 ^ b) { word := w0, callers := List.replicate N Caller.reading } sched,
    ?_, ?_, hinv.2.2.2.2, fun i r hr => ?_⟩
  · unfold test_and_set_bit_race
    rw [if_pos hb32, int_to_long_mask LONG_BIT b hb]
  · rw [hlen]; exact List.length_replicate _ _
  · obtain ⟨hword, hr01⟩ := hinv.2.2.1 i r hr
    refine ⟨hr01, ?_, hinv.2.2.2.1 hword⟩
    rw [hword]
    exact or_two_pow_testBit w0 b

theorem test_and_set_bit_race_alone (LONG_BIT b w : Nat) :
    (test_and_set_bit_race LONG_BIT b w 1 [0, 0]).map
        (fun s => (s.callers, s.word)) =
      (test_and_set_bit LONG_BIT 1 b w).map
        (fun rw => ([Caller.returned rw.1], rw.2)) := by
  unfold test_and_set_bit_race test_and_set_bit
  by_cases hb : b < 32
  · rw [if_pos hb, if_pos hb, test_and_set_bit_loop_first]
    simp [shared_run, shared_step, caller_step, atomic_cmpset_long, atomic_cmpset]
  · rw [if_neg hb, if_neg hb]
    rfl

/-- C13: with a 64-bit `long`, `b = 31` and a word `0x100000000` (bit 31
clear, bit 32 set), a single caller of `test_and_set_bit` returns 1, and so do
two racing callers: no caller returns 0.  The mask `1 << 31` is computed in
`int` and sign-extended, so the returned test looks at bits 31 to 63. -/
theorem test_and_set_bit_race_lp64_bit31 :
    Nat.testBit (2 ^ 32) 31 = false ∧
    test_and_set_bit_race 64 31 (2 ^ 32) 1 [0, 0] =
      some { word := 0xFFFFFFFF80000000, callers := [Caller.returned 1] } ∧
    test_and_set_bit_race 64 31 (2 ^ 32) 2 [0, 1, 0, 1, 1, 1] =
      some { word := 0xFFFFFFFF80000000,
             callers := [Caller.returned 1, Caller.returned 1] } ∧
    test_and_set_bit_race 64 31 (2 ^ 32) 2 [0, 0, 1, 1] =
      some { word := 0xFFFFFFFF80000000,
             callers := [Caller.returned 1, Caller.returned 1] } := by
  decide

end DrmAtomic

